import Mathlib

/-!
Verification of the GOLB / Flux reverse-proxy core: a shallow embedding of
the backend data model, the three load-balancing strategies (RoundRobin,
WeightedRoundRobin, LeastConnections), the proxy gateway hooks (director,
modifyResponse, errorHandler), the health monitor probe verdict, and the
admin registry mutations, together with theorems about the properties the
specification states for them.

Go machine integers are modelled as Int (signed 64-bit counters never
overflow in the properties below) except for the RoundRobin counter, an
atomic uint64, modelled as a Nat reduced modulo 2^64.
-/

namespace Golb

/-- Two to the sixty-fourth power: the modulus of the atomic uint64 counter
used by RoundRobin. -/
def U64 : Nat := 2 ^ 64

/-! ## Model of the relevant fragment of Go net/url.Parse

The repository constructs backends with `url.Parse` from the Go standard
library.  The model below reproduces the behaviour of `Parse` (with
`viaRequest = false`) on the class of inputs the repository handles:
control-byte rejection, fragment and query splitting, scheme detection
(`getScheme`), the colon-in-first-path-segment error, opaque versus
rooted-path splitting, and `//authority` host extraction with optional
numeric port validation.  Percent-escape validation, host character
validation, userinfo validation and IPv6 host brackets are not modelled;
the inputs exercised below contain none of them.  Strings are processed
as character lists so that every definition evaluates by kernel
reduction. -/

/-- Parsed URL record: the fields of Go `url.URL` that the gateway reads. -/
structure GoURL where
  scheme : String
  host : String
  path : String
  opaquePart : String
deriving Repr, DecidableEq, Inhabited

/-- Result of the Go `getScheme` scan: no scheme present, a scheme ending
at the colon at index `i`, or the missing-protocol-scheme error. -/
inductive SchemeScan where
  | noScheme
  | colonAt (i : Nat)
  | err
deriving Repr, DecidableEq

/-- Character class check from Go `getScheme`: digits and `+ - .` may appear
in a scheme after the first character. -/
def schemeTailChar (c : Char) : Bool :=
  c.isDigit || c = '+' || c = '-' || c = '.'

/-- Go `getScheme`: walk the characters, carrying the index; a colon at
index zero is the missing-protocol-scheme error, a colon after valid
scheme characters ends the scheme, and any other character means the
whole input is a scheme-less rest. -/
def schemeScan : List Char → Nat → SchemeScan
  | [], _ => .noScheme
  | c :: cs, i =>
    if c.isAlpha then schemeScan cs (i + 1)
    else if schemeTailChar c then
      if i = 0 then .noScheme else schemeScan cs (i + 1)
    else if c = ':' then
      if i = 0 then .err else .colonAt i
    else .noScheme

/-- Go `validOptionalPort`: empty, or a colon followed by only digits. -/
def validOptionalPort : List Char → Bool
  | [] => true
  | ':' :: rest => rest.all Char.isDigit
  | _ => false

/-- Suffix of the authority starting at the last colon, if any colon is
present: the candidate `:port` part that Go validates. -/
def portSuffix : List Char → Option (List Char)
  | [] => none
  | c :: cs =>
    match portSuffix cs with
    | some suf => some suf
    | none => if c = ':' then some (c :: cs) else none

/-- Segment of the authority after the last `@`: the host part, with any
userinfo stripped as Go `parseAuthority` does (userinfo not validated). -/
def afterLastAt (cs : List Char) : List Char :=
  match cs with
  | [] => []
  | c :: rest =>
    if (c :: rest).contains '@' then
      if rest.contains '@' then afterLastAt rest
      else if c = '@' then rest else afterLastAt rest
    else c :: rest

/-- Go `parseHost` restricted to bracket-free hosts: validate the optional
numeric port at the last colon. -/
def parseHost (authority : List Char) : Option (List Char) :=
  match portSuffix authority with
  | none => some authority
  | some suf => if validOptionalPort suf then some authority else none

/-- Shared tail of Go `parse` after the scheme has been removed: split off
the query, handle the opaque and the colon-in-first-segment cases, then
extract the `//authority` host when present. -/
def parseAfterScheme (scheme : String) (rest0 : List Char) : Option GoURL :=
  let rest := rest0.takeWhile (· ≠ '?')
  if rest.take 1 ≠ ['/'] then
    if scheme ≠ "" then some ⟨scheme, "", "", String.mk rest⟩
    else if rest = [] then some ⟨scheme, "", "", ""⟩
    else
      let seg := rest.takeWhile (· ≠ '/')
      if seg.contains ':' then none
      else some ⟨scheme, "", String.mk rest, ""⟩
  else if rest.take 2 = ['/', '/'] && (scheme ≠ "" || rest.take 3 ≠ ['/', '/', '/']) then
    let authority := (rest.drop 2).takeWhile (· ≠ '/')
    match parseHost (afterLastAt authority) with
    | none => none
    | some h => some ⟨scheme, String.mk h, String.mk ((rest.drop 2).dropWhile (· ≠ '/')), ""⟩
  else some ⟨scheme, "", String.mk rest, ""⟩

/-- Model of Go `url.Parse` (fragment described above): split off the
fragment, reject control bytes, detect the scheme and delegate to
`parseAfterScheme`. -/
def urlParse (raw : String) : Option GoURL :=
  let cs := raw.toList.takeWhile (· ≠ '#')
  if raw.toList.any (fun c => c.toNat < 0x20 || c.toNat = 0x7f) then none
  else
    match schemeScan cs 0 with
    | .err => none
    | .noScheme => parseAfterScheme "" cs
    | .colonAt i => parseAfterScheme (String.mk ((cs.take i).map Char.toLower)) (cs.drop (i + 1))

/-! ## Backend (internal/strategy, Backend and its atomic accessors) -/

/-- Runtime record of one upstream server, from `strategy.Backend`.  The Go
struct holds a parsed `*url.URL`, the original URL string, the static
weight, and five atomic fields; atomics are modelled as plain fields of a
value that every operation threads explicitly. -/
structure Backend where
  url : GoURL
  rawURL : String
  weight : Int
  healthy : Bool
  blocked : Bool
  activeConns : Int
  totalRequests : Int
  totalErrors : Int
deriving Repr, DecidableEq, Inhabited

/-- Go `NewBackend`: parse the raw URL; on parse failure return the error,
otherwise a backend that starts healthy, unblocked, with zeroed counters. -/
def NewBackend (rawURL : String) (weight : Int) : Except String Backend :=
  match urlParse rawURL with
  | none => .error ("strategy: invalid backend URL " ++ rawURL)
  | some u =>
    .ok { url := u, rawURL := rawURL, weight := weight,
          healthy := true, blocked := false,
          activeConns := 0, totalRequests := 0, totalErrors := 0 }

def Backend.setHealthy (b : Backend) (v : Bool) : Backend := { b with healthy := v }

def Backend.setBlocked (b : Backend) (v : Bool) : Backend := { b with blocked := v }

def Backend.incConns (b : Backend) : Backend := { b with activeConns := b.activeConns + 1 }

def Backend.decConns (b : Backend) : Backend := { b with activeConns := b.activeConns - 1 }

def Backend.incRequests (b : Backend) : Backend :=
  { b with totalRequests := b.totalRequests + 1 }

def Backend.incErrors (b : Backend) : Backend := { b with totalErrors := b.totalErrors + 1 }

/-- Selectable predicate from the spec glossary and `healthySubset`:
healthy and not administratively blocked. -/
def Backend.selectable (b : Backend) : Bool := b.healthy && !b.blocked

/-- Go `healthySubset`: the healthy, non-blocked (selectable) backends, in
list order. -/
def healthySubset (all : List Backend) : List Backend :=
  all.filter fun b => b.selectable

/-- In-place update of one list element, the pure counterpart of mutating a
slice element through a pointer in Go. -/
def listModify {α : Type} : List α → Nat → (α → α) → List α
  | [], _, _ => []
  | a :: t, 0, f => f a :: t
  | a :: t, n + 1, f => a :: listModify t n f

theorem listModify_length {α : Type} (l : List α) (i : Nat) (f : α → α) :
    (listModify l i f).length = l.length := by
  induction l generalizing i with
  | nil => rfl
  | cons a t ih =>
    cases i with
    | zero => rfl
    | succ n => simp [listModify, ih]

theorem listModify_getD_self {α : Type} (l : List α) (i : Nat) (f : α → α)
    (d : α) (h : i < l.length) :
    (listModify l i f).getD i d = f (l.getD i d) := by
  induction l generalizing i with
  | nil => simp at h
  | cons a t ih =>
    cases i with
    | zero => rfl
    | succ n =>
      simp only [listModify, List.getD_cons_succ]
      exact ih n (by simpa using h)

theorem listModify_getD_ne {α : Type} (l : List α) (i : Nat) (f : α → α)
    (d : α) (j : Nat) (h : j ≠ i) :
    (listModify l i f).getD j d = l.getD j d := by
  induction l generalizing i j with
  | nil => rfl
  | cons a t ih =>
    cases i with
    | zero =>
      cases j with
      | zero => exact absurd rfl h
      | succ m => rfl
    | succ n =>
      cases j with
      | zero => rfl
      | succ m =>
        simp only [listModify, List.getD_cons_succ]
        exact ih n m (fun e => h (by omega))

/-! ## RoundRobin (internal/strategy, lock-free uint64 counter) -/

/-- Indices (into the full list) of the selectable backends, in declared
order; `healthySubset` is the same filter applied to the values.  Returning
indices lets the pure model write the `IncConns` update back through the
alias that the Go slice of pointers provides. -/
def selectableIdxs (bs : List Backend) : List Nat :=
  (List.range bs.length).filter fun i => (bs.getD i default).selectable

/-- RoundRobin state: the backend list and the atomic uint64 counter. -/
structure RoundRobin where
  backends : List Backend
  counter : Nat
deriving Repr, DecidableEq

/-- Go `NewRoundRobin`: counter starts at zero. -/
def NewRoundRobin (bs : List Backend) : RoundRobin := ⟨bs, 0⟩

/-- Go `RoundRobin.Next`: snapshot the selectable subset; fail when it is
empty; otherwise fetch-and-increment the counter (wrapping uint64
arithmetic) and pick `subset[(newCounter-1) mod |subset|]`, incrementing
its active-connection count.  The model returns the index of the chosen
backend in the full list together with the updated state. -/
def RoundRobin.next (r : RoundRobin) : Except Unit (Nat × RoundRobin) :=
  let idxs := selectableIdxs r.backends
  if idxs.length = 0 then .error ()
  else
    let newC := (r.counter + 1) % U64
    let idx := (newC + (U64 - 1)) % U64
    let i := idxs.getD (idx % idxs.length) 0
    .ok (i, ⟨listModify r.backends i Backend.incConns, newC⟩)

/-! ## WeightedRoundRobin (smooth, nginx-style) -/

/-- Go `wrrEntry`: a backend reference plus its mutable current weight. -/
structure WrrEntry where
  backend : Backend
  currentWeight : Int
deriving Repr, DecidableEq, Inhabited

/-- WeightedRoundRobin state: the mutex-guarded entry array. -/
structure WeightedRoundRobin where
  entries : List WrrEntry
deriving Repr, DecidableEq

/-- Go `NewWeightedRoundRobin`: one entry per backend, current weights
starting at zero (the Go zero value). -/
def NewWeightedRoundRobin (bs : List Backend) : WeightedRoundRobin :=
  ⟨bs.map fun b => ⟨b, 0⟩⟩

/-- Step 1 of `WeightedRoundRobin.Next`: raise every healthy entry by its
weight (the `blocked` flag is not consulted in the source). -/
def wrrRaise (es : List WrrEntry) : List WrrEntry :=
  es.map fun e =>
    if e.backend.healthy then
      { e with currentWeight := e.currentWeight + e.backend.weight }
    else e

/-- Total weight over the healthy entries, as computed by the collection
loop of `WeightedRoundRobin.Next`. -/
def wrrTotal (es : List WrrEntry) : Int :=
  ((es.filter fun e => e.backend.healthy).map fun e => e.backend.weight).sum

/-- Selection fold of `WeightedRoundRobin.Next` over indexed entries: skip
unhealthy entries; a later entry replaces the best only when its current
weight is strictly greater, so ties keep the earliest index.  Returns the
winning index and its current weight, or nothing when no entry is healthy. -/
def wrrBestStep (acc : Option (Nat × Int)) (p : Nat × WrrEntry) : Option (Nat × Int) :=
  if p.2.backend.healthy then
    match acc with
    | none => some (p.1, p.2.currentWeight)
    | some b => if p.2.currentWeight > b.2 then some (p.1, p.2.currentWeight) else some b
  else acc

def wrrBest (l : List (Nat × WrrEntry)) : Option (Nat × Int) :=
  l.foldl wrrBestStep none

/-- Go `WeightedRoundRobin.Next`: raise healthy entries, pick the healthy
entry with the greatest current weight (earliest index on ties), subtract
the total healthy weight from the winner and increment its connection
count.  Fails when no entry is healthy. -/
def WeightedRoundRobin.next (w : WeightedRoundRobin) :
    Except Unit (Nat × WeightedRoundRobin) :=
  let raised := wrrRaise w.entries
  match wrrBest raised.enum with
  | none => .error ()
  | some (bi, _) =>
    let total := wrrTotal w.entries
    .ok (bi, ⟨listModify raised bi fun e =>
      { backend := e.backend.incConns, currentWeight := e.currentWeight - total }⟩)

/-! ## LeastConnections -/

/-- LeastConnections state: just the backend list. -/
structure LeastConnections where
  backends : List Backend
deriving Repr, DecidableEq

/-- Selection fold of `LeastConnections.Next`: skip unhealthy backends (the
`blocked` flag is not consulted in the source); a later backend replaces
the best only when its active-connection count is strictly smaller, so
ties keep the earliest index. -/
def lcBestStep (acc : Option (Nat × Int)) (p : Nat × Backend) : Option (Nat × Int) :=
  if p.2.healthy then
    match acc with
    | none => some (p.1, p.2.activeConns)
    | some b => if p.2.activeConns < b.2 then some (p.1, p.2.activeConns) else some b
  else acc

def lcBest (l : List (Nat × Backend)) : Option (Nat × Int) :=
  l.foldl lcBestStep none

/-- Go `LeastConnections.Next`: linear scan for the healthy backend with
the fewest active connections, then increment its connection count. -/
def LeastConnections.next (l : LeastConnections) :
    Except Unit (Nat × LeastConnections) :=
  match lcBest l.backends.enum with
  | none => .error ()
  | some (i, _) => .ok (i, ⟨listModify l.backends i Backend.incConns⟩)

/-! ## Picker (internal/strategy Picker interface) -/

/-- The three policy variants behind the `strategy.Picker` interface. -/
inductive Picker where
  | roundRobin (r : RoundRobin)
  | weightedRoundRobin (w : WeightedRoundRobin)
  | leastConnections (l : LeastConnections)
deriving Repr, DecidableEq

/-- The full backend list a picker was built over (entries of the WRR
array project to their backends). -/
def Picker.backends : Picker → List Backend
  | .roundRobin r => r.backends
  | .weightedRoundRobin w => w.entries.map (·.backend)
  | .leastConnections l => l.backends

/-- `Next` dispatched through the interface: the chosen index into the full
list plus the updated picker state. -/
def Picker.next : Picker → Except Unit (Nat × Picker)
  | .roundRobin r => (r.next).map fun p => (p.1, .roundRobin p.2)
  | .weightedRoundRobin w => (w.next).map fun p => (p.1, .weightedRoundRobin p.2)
  | .leastConnections l => (l.next).map fun p => (p.1, .leastConnections p.2)

/-- `Done` dispatched through the interface: every variant releases one
active connection on the given backend. -/
def Picker.done : Picker → Backend → Backend
  | .roundRobin _, b => b.decConns
  | .weightedRoundRobin _, b => b.decConns
  | .leastConnections _, b => b.decConns

/-! ## Sequential runs of a picker

A run is a sequence of `next()` calls with no interleaved health changes:
the chosen indices are collected in order; a failing call leaves the state
unchanged (the Go caller receives the error and the picker keeps its
state). -/

/-- Run `m` consecutive `RoundRobin.Next` calls. -/
def RoundRobin.run (r : RoundRobin) : Nat → List Nat × RoundRobin
  | 0 => ([], r)
  | m + 1 =>
    let x := r.run m
    match x.2.next with
    | .error _ => x
    | .ok (i, s2) => (x.1 ++ [i], s2)

/-- Run `m` consecutive `WeightedRoundRobin.Next` calls. -/
def WeightedRoundRobin.run (w : WeightedRoundRobin) :
    Nat → List Nat × WeightedRoundRobin
  | 0 => ([], w)
  | m + 1 =>
    let x := w.run m
    match x.2.next with
    | .error _ => x
    | .ok (i, s2) => (x.1 ++ [i], s2)

/-! ## Proxy gateway (internal/proxy: director, modifyResponse, errorHandler) -/

/-- Header map modelled as an association list; `hSet` replaces all values
of the key, matching `http.Header.Set`, and `hGet` reads the first value,
matching `http.Header.Get` (canonicalisation is outside the model: the
gateway always uses the canonical spelling). -/
def hGet (hs : List (String × String)) (k : String) : String :=
  (((hs.find? fun p => p.1 = k).map Prod.snd).getD "")

def hSet (hs : List (String × String)) (k v : String) : List (String × String) :=
  (hs.filter fun p => p.1 ≠ k) ++ [(k, v)]

def hDel (hs : List (String × String)) (k : String) : List (String × String) :=
  hs.filter fun p => p.1 ≠ k

/-- The inbound request fields the director reads and rewrites. -/
structure Request where
  urlScheme : String
  urlHost : String
  host : String
  remoteAddr : String
  tls : Bool
  headers : List (String × String)
deriving Repr, DecidableEq

/-- Go `requestScheme`: https exactly when the inbound connection is TLS. -/
def requestScheme (r : Request) : String :=
  if r.tls then "https" else "http"

/-- Rewrite performed by `Gateway.director` once a backend has been chosen:
retarget the URL and Host, strip the `Te` and `Trailers` hop-by-hop
headers, then inject the forwarding headers. -/
def directorRewrite (b : Backend) (req : Request) : Request :=
  let originalHost := req.host
  let req := { req with urlScheme := b.url.scheme, urlHost := b.url.host,
                        host := b.url.host }
  let hs := hDel (hDel req.headers "Te") "Trailers"
  let prior := hGet hs "X-Forwarded-For"
  let hs :=
    if prior ≠ "" then hSet hs "X-Forwarded-For" (prior ++ ", " ++ req.remoteAddr)
    else hSet hs "X-Forwarded-For" req.remoteAddr
  let hs := hSet hs "X-Real-IP" req.remoteAddr
  let hs := hSet hs "X-Forwarded-Host" originalHost
  let hs := hSet hs "X-Forwarded-Proto" (requestScheme req)
  { req with headers := hs }

/-- Gateway state: the atomically swappable current picker. -/
structure Gateway where
  picker : Picker
deriving Repr, DecidableEq

/-- Go `Gateway.UpdatePicker`: swap the active picker. -/
def Gateway.updatePicker (_gw : Gateway) (p : Picker) : Gateway := ⟨p⟩

/-- Picker snapshot taken by `Gateway.director` before calling `Next`: the
picker current when the request starts. -/
def Gateway.directorSnapshot (gw : Gateway) : Picker := gw.picker

/-- Picker snapshot taken inside `Gateway.modifyResponse` and
`Gateway.errorHandler` before calling `Done`: the hooks re-read
`gw.picker` at completion time instead of reusing the snapshot the
director captured. -/
def Gateway.completionSnapshot (gw : Gateway) : Picker := gw.picker

/-- HTTP response the error handler writes. -/
structure HTTPResponse where
  status : Nat
  body : String
deriving Repr, DecidableEq

/-- Go `Gateway.modifyResponse` effect on the backend attached to the
request context (if any): release the connection through the picker
current at completion time, then count the request. -/
def Gateway.modifyResponse (gw : Gateway) (ctxBackend : Option Backend) :
    Option Backend :=
  match ctxBackend with
  | some b => some ((gw.completionSnapshot.done b).incRequests)
  | none => none

/-- Go `Gateway.errorHandler` effect: with a backend attached, release the
connection through the picker current at completion time, mark the backend
unhealthy (passive demotion), count the request and the error; in every
case answer 502 with the short text body written by `http.Error`. -/
def Gateway.errorHandler (gw : Gateway) (ctxBackend : Option Backend) :
    Option Backend × HTTPResponse :=
  match ctxBackend with
  | some b =>
    (some ((((gw.completionSnapshot.done b).setHealthy false).incRequests).incErrors),
     ⟨502, "bad gateway"⟩)
  | none => (none, ⟨502, "bad gateway"⟩)

/-! ## Health monitor probe verdict (health.Monitor.probe) -/

/-- Outcome of one probe request: a transport or timeout error, or a
response with a status code. -/
inductive ProbeResult where
  | transportError
  | status (code : Nat)
deriving Repr, DecidableEq

/-- Log events the probe can emit. -/
inductive LogEvent where
  | recovered
  | becameUnhealthy
deriving Repr, DecidableEq

/-- Go `Monitor.probe` verdict on one backend: status in [200,400) stores
healthy true, logging a recovery only on a transition from unhealthy; any
other status or a transport error stores healthy false, logging a
degradation only on a transition from healthy.  The store is unconditional
in every branch. -/
def Monitor.probe (b : Backend) (r : ProbeResult) : Backend × List LogEvent :=
  match r with
  | .transportError =>
    (b.setHealthy false, if b.healthy then [.becameUnhealthy] else [])
  | .status code =>
    if 200 ≤ code ∧ code < 400 then
      (b.setHealthy true, if !b.healthy then [.recovered] else [])
    else
      (b.setHealthy false, if b.healthy then [.becameUnhealthy] else [])

/-! ## Admin registry (internal/admin/registry.go) -/

/-- Registry state: the authoritative backend list and the strategy name. -/
structure Registry where
  backends : List Backend
  strategyName : String
deriving Repr, DecidableEq

/-- One `onChange(strategyName, snapshot)` callback invocation. -/
structure ChangeEvent where
  strategyName : String
  snapshot : List Backend
deriving Repr, DecidableEq

/-- Result of a registry mutation: the registry afterwards, the callback
invocations it performed, and the error it returned, if any. -/
structure RegResult where
  reg : Registry
  events : List ChangeEvent
  err : Option String
deriving Repr, DecidableEq

/-- Go `Registry.Add`: construct the backend (failing on an unparseable
URL), fail on a duplicate raw URL, otherwise append and fire `onChange`
once with the new snapshot. -/
def Registry.add (r : Registry) (rawURL : String) (weight : Int) : RegResult :=
  match NewBackend rawURL weight with
  | .error e => ⟨r, [], some e⟩
  | .ok b =>
    if r.backends.any fun ex => ex.rawURL = rawURL then
      ⟨r, [], some ("backend " ++ rawURL ++ " already exists")⟩
    else
      let bs := r.backends ++ [b]
      ⟨⟨bs, r.strategyName⟩, [⟨r.strategyName, bs⟩], none⟩

/-- Go `Registry.find`: index of the backend with the given raw URL. -/
def Registry.findIdx (r : Registry) (rawURL : String) : Option Nat :=
  (r.backends.enum.find? fun p => p.2.rawURL = rawURL).map Prod.fst

/-- Go `Registry.Remove`: fail when the URL is not present, otherwise
delete it and fire `onChange` once with the new snapshot. -/
def Registry.remove (r : Registry) (rawURL : String) : RegResult :=
  match r.findIdx rawURL with
  | none => ⟨r, [], some ("backend " ++ rawURL ++ " not found")⟩
  | some idx =>
    let bs := r.backends.eraseIdx idx
    ⟨⟨bs, r.strategyName⟩, [⟨r.strategyName, bs⟩], none⟩

/-! ## Generic list lemmas used by the strategy proofs -/

theorem getD_map_lt {α β : Type} (f : α → β) (l : List α) (j : Nat)
    (h : j < l.length) (d : β) (d0 : α) :
    (l.map f).getD j d = f (l.getD j d0) := by
  induction l generalizing j with
  | nil => simp at h
  | cons a t ih =>
    cases j with
    | zero => rfl
    | succ n =>
      simp only [List.map_cons, List.getD_cons_succ]
      exact ih n (by simpa using h)

theorem mem_enum_getD {α : Type} [Inhabited α] (l : List α) (i : Nat) (x : α)
    (h : (i, x) ∈ l.enum) : i < l.length ∧ l.getD i default = x := by
  have hx : l[i]? = some x := List.mem_enum_iff_getElem?.mp h
  have hi : i < l.length := by
    by_contra hge
    rw [List.getElem?_eq_none (by omega)] at hx
    exact Option.noConfusion hx
  exact ⟨hi, by simp [List.getD_eq_getElem?_getD, hx]⟩

/-- A concrete backend used as evaluation input by several witnesses. -/
def sampleBackend : Backend :=
  ⟨⟨"http", "b1:80", "", ""⟩, "http://b1:80", 1, true, false, 0, 0, 0⟩

/-! ## C2 — upstream dispatch failure accounting -/

/-- C2: when upstream dispatch fails for a request whose selection
succeeded (a backend is attached to the request context), the error
handler calls `done` exactly once (the active-connection count drops by
exactly one), stores `healthy := false`, increments the total-request and
total-error counters by exactly one each, and responds 502 Bad Gateway
with the short text body written by `http.Error`. -/
theorem C2_upstream_failure_accounting (gw : Gateway) (b : Backend) :
    gw.errorHandler (some b) =
      (some { b with activeConns := b.activeConns - 1,
                     healthy := false,
                     totalRequests := b.totalRequests + 1,
                     totalErrors := b.totalErrors + 1 },
       ⟨502, "bad gateway"⟩) := by
  cases gw with
  | mk p => cases p <;> rfl

/-! ## C3 — which policy receives the matching done() -/

/-- C3 counterexample: after `UpdatePicker`, the completion hooks
(`modifyResponse`, `errorHandler`) re-read the current picker and call
`Done` on it, so a request that selected through the old picker completes
through the new one, contradicting the claim that the previously captured
policy receives the matching `done()`. -/
theorem C3_counterexample :
    Gateway.completionSnapshot
        ((Gateway.mk (Picker.roundRobin ⟨[], 0⟩)).updatePicker
          (Picker.leastConnections ⟨[]⟩)) ≠
      Gateway.directorSnapshot (Gateway.mk (Picker.roundRobin ⟨[], 0⟩)) := by
  decide

/-- C3 amended: the matching `done()` runs on the policy referenced by the
gateway at completion time (after `update_policy(P2)` completions use P2,
not the captured P); every policy variant implements `done` as the same
single decrement of the backend active-connection count, so the
per-backend accounting is unaffected by the swap. -/
theorem C3_amended_done_uses_current_policy (gw : Gateway) (pNew : Picker)
    (b : Backend) :
    (gw.updatePicker pNew).completionSnapshot = pNew
  ∧ (gw.updatePicker pNew).modifyResponse (some b) =
      some ((pNew.done b).incRequests)
  ∧ (∀ p : Picker, p.done b = b.decConns) := by
  refine ⟨rfl, rfl, fun p => ?_⟩
  cases p <;> rfl

/-! ## C6 — health probe verdicts -/

/-- C6: a probe response with status in [200, 400) stores healthy = true
and logs a recovery exactly when the backend was previously unhealthy; a
status of at least 400 stores healthy = false; a transport or timeout
error stores healthy = false; each branch writes the flag regardless of
its previous value, logging the transition only when the value changes. -/
theorem C6_probe_verdict (b : Backend) (code : Nat) :
    ((200 ≤ code ∧ code < 400) →
        (Monitor.probe b (.status code)).1.healthy = true
      ∧ ((Monitor.probe b (.status code)).2 = [.recovered] ↔ b.healthy = false))
  ∧ (400 ≤ code →
        (Monitor.probe b (.status code)).1.healthy = false
      ∧ ((Monitor.probe b (.status code)).2 = [.becameUnhealthy] ↔ b.healthy = true))
  ∧ ((Monitor.probe b .transportError).1.healthy = false
      ∧ ((Monitor.probe b .transportError).2 = [.becameUnhealthy] ↔ b.healthy = true)) := by
  refine ⟨fun h => ?_, fun h => ?_, ?_⟩
  · rw [Monitor.probe, if_pos h]
    cases hb : b.healthy <;> simp [Backend.setHealthy, hb]
  · rw [Monitor.probe, if_neg (by omega)]
    cases hb : b.healthy <;> simp [Backend.setHealthy, hb]
  · rw [Monitor.probe]
    cases hb : b.healthy <;> simp [Backend.setHealthy, hb]

/-- C6 witness: evaluation of the probe verdict at statuses 204 and 503. -/
theorem C6_probe_verdict_witness :
    (Monitor.probe sampleBackend (.status 204)).1.healthy = true
  ∧ (Monitor.probe sampleBackend (.status 503)).1.healthy = false :=
  ⟨((C6_probe_verdict sampleBackend 204).1 (by omega)).1,
   ((C6_probe_verdict sampleBackend 503).2.1 (by omega)).1⟩

/-! ## C7 — backend URL validation -/

/-- C7 counterexample: the claim says construction fails whenever the raw
URL is not an absolute URL with scheme and host, but `NewBackend` accepts
the relative path below (Go `url.Parse` parses it with empty scheme and
empty host) and returns a backend. -/
theorem C7_counterexample :
    (NewBackend "/relative/path" 1).toOption =
      some { url := ⟨"", "", "/relative/path", ""⟩, rawURL := "/relative/path",
             weight := 1, healthy := true, blocked := false,
             activeConns := 0, totalRequests := 0, totalErrors := 0 } := by
  decide

/-- C7 amended: `new(raw_url, weight)` returns the invalid-URL error
exactly when `url.Parse` fails on the raw URL (control bytes, a leading
colon, a malformed port); presence of a scheme or host is not required.
On success the backend carries the given raw URL and weight, starts
healthy and unblocked, and holds the parsed URL. -/
theorem C7_constructor_parse_only (raw : String) (w : Int) :
    ((NewBackend raw w).isOk = true ↔ (urlParse raw).isSome = true)
  ∧ (∀ b, (NewBackend raw w).toOption = some b →
      b.rawURL = raw ∧ b.weight = w ∧ b.healthy = true ∧ b.blocked = false ∧
      urlParse raw = some b.url) := by
  cases h : urlParse raw with
  | none =>
    refine ⟨by simp [NewBackend, h, Except.isOk, Except.toBool], fun b hb => ?_⟩
    rw [NewBackend, h] at hb
    exact Option.noConfusion hb
  | some u =>
    refine ⟨by simp [NewBackend, h, Except.isOk, Except.toBool], fun b hb => ?_⟩
    rw [NewBackend, h] at hb
    cases hb
    exact ⟨rfl, rfl, rfl, rfl, rfl⟩

/-- C7 witness: evaluation of the amended constructor contract on a
well-formed absolute URL. -/
theorem C7_constructor_parse_only_witness :
    sampleBackend.rawURL = "http://b1:80" ∧ sampleBackend.weight = 1 ∧
    sampleBackend.healthy = true ∧ sampleBackend.blocked = false ∧
    urlParse "http://b1:80" = some sampleBackend.url :=
  (C7_constructor_parse_only "http://b1:80" 1).2 sampleBackend (by decide)

/-! ## Header-map lemmas for the director proof -/

theorem find?_filter_ne_none (hs : List (String × String)) (k : String) :
    ((hs.filter fun p => p.1 ≠ k).find? fun p => p.1 = k) = none := by
  induction hs with
  | nil => rfl
  | cons a t ih =>
    by_cases h : a.1 = k
    · rw [List.filter_cons, if_neg (by simp [h])]
      exact ih
    · rw [List.filter_cons, if_pos (by simp [h]),
          List.find?_cons_of_neg _ (by simp [h])]
      exact ih

theorem find?_filter_ne_comm (hs : List (String × String)) (k k2 : String)
    (h : k2 ≠ k) :
    ((hs.filter fun p => p.1 ≠ k).find? fun p => p.1 = k2) =
      hs.find? fun p => p.1 = k2 := by
  induction hs with
  | nil => rfl
  | cons a t ih =>
    by_cases ha : a.1 = k
    · have hk2 : ¬(a.1 = k2) := by rw [ha]; exact fun e => h e.symm
      rw [List.filter_cons, if_neg (by simp [ha]),
          List.find?_cons_of_neg _ (by simp [hk2])]
      exact ih
    · rw [List.filter_cons, if_pos (by simp [ha])]
      by_cases h2 : a.1 = k2
      · rw [List.find?_cons_of_pos _ (by simp [h2]),
            List.find?_cons_of_pos _ (by simp [h2])]
      · rw [List.find?_cons_of_neg _ (by simp [h2]),
            List.find?_cons_of_neg _ (by simp [h2])]
        exact ih

theorem hGet_hSet_self (hs : List (String × String)) (k v : String) :
    hGet (hSet hs k v) k = v := by
  unfold hGet hSet
  rw [List.find?_append, find?_filter_ne_none,
      List.find?_cons_of_pos _ (by simp)]
  rfl

theorem hGet_hSet_ne (hs : List (String × String)) (k k2 v : String)
    (h : k2 ≠ k) :
    hGet (hSet hs k v) k2 = hGet hs k2 := by
  unfold hGet hSet
  rw [List.find?_append, find?_filter_ne_comm hs k k2 h]
  cases hf : hs.find? fun p => p.1 = k2 with
  | none =>
    rw [Option.none_or, List.find?_cons_of_neg _ (by simpa using Ne.symm h)]
    rfl
  | some x => rfl

theorem hGet_hDel_ne (hs : List (String × String)) (k k2 : String)
    (h : k2 ≠ k) :
    hGet (hDel hs k) k2 = hGet hs k2 := by
  unfold hGet hDel
  rw [find?_filter_ne_comm hs k k2 h]

theorem forall_ne_hDel_self (hs : List (String × String)) (k : String) :
    ∀ p ∈ hDel hs k, p.1 ≠ k := by
  intro p hp
  simpa using List.of_mem_filter hp

theorem forall_ne_hDel (hs : List (String × String)) (k key : String)
    (h : ∀ p ∈ hs, p.1 ≠ key) :
    ∀ p ∈ hDel hs k, p.1 ≠ key :=
  fun p hp => h p (List.mem_of_mem_filter hp)

theorem forall_ne_hSet (hs : List (String × String)) (k v key : String)
    (hk : k ≠ key) (h : ∀ p ∈ hs, p.1 ≠ key) :
    ∀ p ∈ hSet hs k v, p.1 ≠ key := by
  intro p hp
  rcases List.mem_append.1 hp with h1 | h1
  · exact h p (List.mem_of_mem_filter h1)
  · rcases List.mem_singleton.1 h1 with rfl
    exact hk

/-! ## C8 — forwarding headers injected by the director -/

/-- C8: for every request rewritten by the director after a successful
selection, `X-Forwarded-For` is the prior value with the client address
appended (or the client address alone when absent), `X-Real-IP` is the
client address, `X-Forwarded-Host` is the original inbound Host,
`X-Forwarded-Proto` is https exactly when the inbound request arrived
over TLS, and the `Te` and `Trailers` hop-by-hop headers are removed. -/
theorem C8_director_forwarding_headers (b : Backend) (req : Request) :
    hGet (directorRewrite b req).headers "X-Forwarded-For" =
      (if hGet req.headers "X-Forwarded-For" = "" then req.remoteAddr
       else hGet req.headers "X-Forwarded-For" ++ ", " ++ req.remoteAddr)
  ∧ hGet (directorRewrite b req).headers "X-Real-IP" = req.remoteAddr
  ∧ hGet (directorRewrite b req).headers "X-Forwarded-Host" = req.host
  ∧ hGet (directorRewrite b req).headers "X-Forwarded-Proto" =
      (if req.tls then "https" else "http")
  ∧ (∀ p ∈ (directorRewrite b req).headers, p.1 ≠ "Te")
  ∧ (∀ p ∈ (directorRewrite b req).headers, p.1 ≠ "Trailers") := by
  unfold directorRewrite requestScheme
  set hs0 : List (String × String) := hDel (hDel req.headers "Te") "Trailers" with hhs0
  have hprior : hGet hs0 "X-Forwarded-For" = hGet req.headers "X-Forwarded-For" := by
    rw [hhs0, hGet_hDel_ne _ _ _ (by decide), hGet_hDel_ne _ _ _ (by decide)]
  refine ⟨?_, ?_, ?_, ?_, ?_, ?_⟩
  · rw [hGet_hSet_ne _ _ _ _ (by decide), hGet_hSet_ne _ _ _ _ (by decide),
        hGet_hSet_ne _ _ _ _ (by decide)]
    by_cases hp : hGet req.headers "X-Forwarded-For" = ""
    · rw [if_pos hp]
      rw [hprior.symm] at hp
      simp only [hp, ite_not, if_pos rfl]
      exact hGet_hSet_self _ _ _
    · rw [if_neg hp]
      rw [hprior.symm] at hp
      simp only [ite_not, if_neg hp]
      rw [hGet_hSet_self, hprior]
  · rw [hGet_hSet_ne _ _ _ _ (by decide), hGet_hSet_ne _ _ _ _ (by decide),
        hGet_hSet_self]
  · rw [hGet_hSet_ne _ _ _ _ (by decide), hGet_hSet_self]
  · rw [hGet_hSet_self]
  · refine forall_ne_hSet _ _ _ _ (by decide) ?_
    refine forall_ne_hSet _ _ _ _ (by decide) ?_
    refine forall_ne_hSet _ _ _ _ (by decide) ?_
    split
    all_goals
      refine forall_ne_hSet _ _ _ _ (by decide) ?_
      exact forall_ne_hDel _ _ _ (forall_ne_hDel_self _ _)
  · refine forall_ne_hSet _ _ _ _ (by decide) ?_
    refine forall_ne_hSet _ _ _ _ (by decide) ?_
    refine forall_ne_hSet _ _ _ _ (by decide) ?_
    split
    all_goals
      refine forall_ne_hSet _ _ _ _ (by decide) ?_
      exact forall_ne_hDel_self _ _

/-! ## C9 — registry mutation contract -/

theorem find?_enumFrom_isSome {α : Type} (pred : α → Bool) (l : List α) (n : Nat) :
    ((List.enumFrom n l).find? fun p => pred p.2).isSome = l.any pred := by
  induction l generalizing n with
  | nil => rfl
  | cons b t ih =>
    rw [List.enumFrom_cons]
    by_cases hp : pred b
    · rw [List.find?_cons_of_pos _ (by simpa using hp)]
      simp [hp]
    · rw [List.find?_cons_of_neg _ (by simpa using hp)]
      simp [hp, ih]

theorem Registry_findIdx_isSome (r : Registry) (url : String) :
    (r.findIdx url).isSome = r.backends.any fun b => b.rawURL = url := by
  unfold Registry.findIdx
  rw [show r.backends.enum = List.enumFrom 0 r.backends from rfl]
  rw [← find?_enumFrom_isSome (fun b => decide (b.rawURL = url)) r.backends 0]
  cases (List.enumFrom 0 r.backends).find? fun p => decide (p.2.rawURL = url) <;> rfl

/-- C9 counterexample: adding the unparseable URL `":foo"` to an empty
registry fails (through backend construction) even though no backend with
that raw URL is registered, so `add` does not fail exactly on duplicates. -/
theorem C9_counterexample :
    ((Registry.mk [] "round_robin").add ":foo" 1).err.isSome = true
  ∧ ((Registry.mk [] "round_robin").backends.any fun ex => ex.rawURL = ":foo") = false := by
  exact ⟨by decide, by decide⟩

/-- C9 amended: `add(url, weight)` fails exactly when the URL fails backend
construction (unparseable) or a backend with the same raw URL is already
registered, and `remove(url)` fails exactly when no backend with that raw
URL is present; on failure the registry is unchanged and the change
callback is not invoked; every successful mutation appends or deletes the
one backend and invokes the callback exactly once with the new snapshot. -/
theorem C9_registry_mutation_contract (r : Registry) (url : String) (w : Int) :
    ((r.add url w).err.isSome = true ↔
        ((urlParse url).isNone = true ∨ (r.backends.any fun ex => ex.rawURL = url) = true))
  ∧ ((r.add url w).err.isSome = true →
        (r.add url w).reg = r ∧ (r.add url w).events = [])
  ∧ ((r.add url w).err = none →
        (∃ b, (NewBackend url w).toOption = some b ∧
              (r.add url w).reg.backends = r.backends ++ [b])
      ∧ (r.add url w).reg.strategyName = r.strategyName
      ∧ (r.add url w).events = [⟨r.strategyName, (r.add url w).reg.backends⟩])
  ∧ ((r.remove url).err.isSome = true ↔
        (r.backends.any fun ex => ex.rawURL = url) = false)
  ∧ ((r.remove url).err.isSome = true →
        (r.remove url).reg = r ∧ (r.remove url).events = [])
  ∧ ((r.remove url).err = none →
        (r.remove url).events = [⟨r.strategyName, (r.remove url).reg.backends⟩]) := by
  have hany : (r.findIdx url).isSome = r.backends.any fun b => b.rawURL = url :=
    Registry_findIdx_isSome r url
  refine ⟨?_, ?_, ?_, ?_, ?_, ?_⟩
  · cases h : urlParse url with
    | none => simp [Registry.add, NewBackend, h]
    | some u =>
      by_cases hdup : (r.backends.any fun ex => ex.rawURL = url) = true
      · simp [Registry.add, NewBackend, h, hdup]
      · simp [Registry.add, NewBackend, h, hdup]
  · cases h : urlParse url with
    | none => intro _; simp [Registry.add, NewBackend, h]
    | some u =>
      by_cases hdup : (r.backends.any fun ex => ex.rawURL = url) = true
      · intro _; simp [Registry.add, NewBackend, h, hdup]
      · intro hcontra
        rw [Registry.add, NewBackend, h] at hcontra
        simp [hdup] at hcontra
  · cases h : urlParse url with
    | none => intro hcontra; rw [Registry.add, NewBackend, h] at hcontra; simp at hcontra
    | some u =>
      by_cases hdup : (r.backends.any fun ex => ex.rawURL = url) = true
      · intro hcontra
        rw [Registry.add, NewBackend, h] at hcontra
        simp [hdup] at hcontra
      · intro _
        refine ⟨⟨{ url := u, rawURL := url, weight := w, healthy := true,
                   blocked := false, activeConns := 0, totalRequests := 0,
                   totalErrors := 0 }, ?_, ?_⟩, ?_, ?_⟩
        · simp [NewBackend, h, Except.toOption]
        · simp [Registry.add, NewBackend, h, hdup]
        · simp [Registry.add, NewBackend, h, hdup]
        · simp [Registry.add, NewBackend, h, hdup]
  · cases hf : r.findIdx url with
    | none =>
      rw [← hany, hf]
      simp [Registry.remove, hf]
    | some i =>
      rw [← hany, hf]
      simp [Registry.remove, hf]
  · cases hf : r.findIdx url with
    | none => intro _; simp [Registry.remove, hf]
    | some i => intro hcontra; rw [Registry.remove, hf] at hcontra; simp at hcontra
  · cases hf : r.findIdx url with
    | none => intro hcontra; rw [Registry.remove, hf] at hcontra; simp at hcontra
    | some i => intro _; simp [Registry.remove, hf]

/-- C9 witness: a successful add fires the callback once with the new
snapshot, and a failing remove leaves the registry unchanged. -/
theorem C9_witness :
    ((Registry.mk [] "round_robin").add "http://b1:80" 1).events =
      [⟨"round_robin", ((Registry.mk [] "round_robin").add "http://b1:80" 1).reg.backends⟩]
  ∧ ((Registry.mk [] "round_robin").remove "http://b1:80").reg =
      Registry.mk [] "round_robin" :=
  ⟨((C9_registry_mutation_contract (Registry.mk [] "round_robin") "http://b1:80" 1).2.2.1
      (by decide)).2.2,
   ((C9_registry_mutation_contract (Registry.mk [] "round_robin") "http://b1:80" 1).2.2.2.2.1
      (by decide)).1⟩

/-! ## Specification of the selection folds -/

theorem wrrBest_fold (l : List (Nat × WrrEntry)) : ∀ acc : Option (Nat × Int),
    (l.foldl wrrBestStep acc = none →
        acc = none ∧ ∀ p ∈ l, p.2.backend.healthy = false)
  ∧ (∀ i c, l.foldl wrrBestStep acc = some (i, c) →
        (acc = some (i, c) ∨
          ∃ e, (i, e) ∈ l ∧ e.backend.healthy = true ∧ e.currentWeight = c)
      ∧ (∀ j d, acc = some (j, d) → d ≤ c)
      ∧ (∀ p ∈ l, p.2.backend.healthy = true → p.2.currentWeight ≤ c)) := by
  induction l with
  | nil =>
    intro acc
    constructor
    · intro h
      rw [List.foldl_nil] at h
      exact ⟨h, by simp⟩
    · intro i c h
      rw [List.foldl_nil] at h
      refine ⟨Or.inl h, fun j d hjd => ?_, by simp⟩
      rw [h] at hjd
      injection hjd with hjd2
      injection hjd2 with _ hcd
      exact le_of_eq hcd.symm
  | cons hd tl ih =>
    intro acc
    by_cases hh : hd.2.backend.healthy = true
    · cases acc with
      | none =>
        have hstep : wrrBestStep none hd = some (hd.1, hd.2.currentWeight) := by
          simp [wrrBestStep, hh]
        constructor
        · intro h
          rw [List.foldl_cons, hstep] at h
          obtain ⟨hn, _⟩ := (ih (some (hd.1, hd.2.currentWeight))).1 h
          exact Option.noConfusion hn
        · intro i c h
          rw [List.foldl_cons, hstep] at h
          obtain ⟨H1, H2, H3⟩ := (ih (some (hd.1, hd.2.currentWeight))).2 i c h
          have hcwle : hd.2.currentWeight ≤ c := H2 hd.1 hd.2.currentWeight rfl
          refine ⟨?_, fun j d hjd => Option.noConfusion hjd, fun p hp hph => ?_⟩
          · right
            rcases H1 with heq | ⟨e, hmem, he1, he2⟩
            · injection heq with heq2
              injection heq2 with hi hc
              exact ⟨hd.2, by rw [← hi]; exact List.mem_cons_self _ _, hh, hc⟩
            · exact ⟨e, List.mem_cons_of_mem _ hmem, he1, he2⟩
          · rcases List.mem_cons.1 hp with rfl | hmem
            · exact hcwle
            · exact H3 p hmem hph
      | some b =>
        by_cases hgt : hd.2.currentWeight > b.2
        · have hstep : wrrBestStep (some b) hd = some (hd.1, hd.2.currentWeight) := by
            simp [wrrBestStep, hh, hgt]
          constructor
          · intro h
            rw [List.foldl_cons, hstep] at h
            obtain ⟨hn, _⟩ := (ih (some (hd.1, hd.2.currentWeight))).1 h
            exact Option.noConfusion hn
          · intro i c h
            rw [List.foldl_cons, hstep] at h
            obtain ⟨H1, H2, H3⟩ := (ih (some (hd.1, hd.2.currentWeight))).2 i c h
            have hcwle : hd.2.currentWeight ≤ c := H2 hd.1 hd.2.currentWeight rfl
            refine ⟨?_, fun j d hjd => ?_, fun p hp hph => ?_⟩
            · right
              rcases H1 with heq | ⟨e, hmem, he1, he2⟩
              · injection heq with heq2
                injection heq2 with hi hc
                exact ⟨hd.2, by rw [← hi]; exact List.mem_cons_self _ _, hh, hc⟩
              · exact ⟨e, List.mem_cons_of_mem _ hmem, he1, he2⟩
            · injection hjd with hjd2
              rw [show d = b.2 from by rw [hjd2]]
              exact le_of_lt (lt_of_lt_of_le hgt hcwle)
            · rcases List.mem_cons.1 hp with rfl | hmem
              · exact hcwle
              · exact H3 p hmem hph
        · have hstep : wrrBestStep (some b) hd = some b := by
            simp [wrrBestStep, hh, hgt]
          constructor
          · intro h
            rw [List.foldl_cons, hstep] at h
            obtain ⟨hn, _⟩ := (ih (some b)).1 h
            exact Option.noConfusion hn
          · intro i c h
            rw [List.foldl_cons, hstep] at h
            obtain ⟨H1, H2, H3⟩ := (ih (some b)).2 i c h
            have hble : b.2 ≤ c := H2 b.1 b.2 (by rw [Prod.mk.eta])
            refine ⟨?_, fun j d hjd => ?_, fun p hp hph => ?_⟩
            · rcases H1 with heq | ⟨e, hmem, he1, he2⟩
              · exact Or.inl heq
              · exact Or.inr ⟨e, List.mem_cons_of_mem _ hmem, he1, he2⟩
            · injection hjd with hjd2
              rw [show d = b.2 from by rw [hjd2]]
              exact hble
            · rcases List.mem_cons.1 hp with rfl | hmem
              · exact le_trans (not_lt.mp hgt) hble
              · exact H3 p hmem hph
    · have hstep : ∀ a : Option (Nat × Int), wrrBestStep a hd = a := by
        intro a
        simp [wrrBestStep, hh]
      constructor
      · intro h
        rw [List.foldl_cons, hstep] at h
        obtain ⟨hn, htl⟩ := (ih acc).1 h
        refine ⟨hn, fun p hp => ?_⟩
        rcases List.mem_cons.1 hp with rfl | hmem
        · simpa using hh
        · exact htl p hmem
      · intro i c h
        rw [List.foldl_cons, hstep] at h
        obtain ⟨H1, H2, H3⟩ := (ih acc).2 i c h
        refine ⟨?_, H2, fun p hp hph => ?_⟩
        · rcases H1 with heq | ⟨e, hmem, he⟩
          · exact Or.inl heq
          · exact Or.inr ⟨e, List.mem_cons_of_mem _ hmem, he⟩
        · rcases List.mem_cons.1 hp with rfl | hmem
          · exact absurd hph hh
          · exact H3 p hmem hph

theorem wrrBest_some_spec (l : List (Nat × WrrEntry)) (i : Nat) (c : Int)
    (h : wrrBest l = some (i, c)) :
    (∃ e, (i, e) ∈ l ∧ e.backend.healthy = true ∧ e.currentWeight = c)
  ∧ ∀ p ∈ l, p.2.backend.healthy = true → p.2.currentWeight ≤ c := by
  obtain ⟨H1, _, H3⟩ := (wrrBest_fold l none).2 i c h
  rcases H1 with heq | hex
  · exact Option.noConfusion heq
  · exact ⟨hex, H3⟩

theorem wrrBest_none_of_unhealthy (l : List (Nat × WrrEntry))
    (h : ∀ p ∈ l, p.2.backend.healthy = false) : wrrBest l = none := by
  unfold wrrBest
  induction l with
  | nil => rfl
  | cons hd tl ih =>
    rw [List.foldl_cons]
    have hstep : wrrBestStep none hd = none := by
      simp [wrrBestStep, h hd (List.mem_cons_self _ _)]
    rw [hstep]
    exact ih fun p hp => h p (List.mem_cons_of_mem _ hp)

theorem lcBest_fold_healthy (l : List (Nat × Backend)) : ∀ acc : Option (Nat × Int),
    ∀ i c, l.foldl lcBestStep acc = some (i, c) →
      acc = some (i, c) ∨ ∃ b, (i, b) ∈ l ∧ b.healthy = true := by
  induction l with
  | nil =>
    intro acc i c h
    rw [List.foldl_nil] at h
    exact Or.inl h
  | cons hd tl ih =>
    intro acc i c h
    rw [List.foldl_cons] at h
    by_cases hh : hd.2.healthy = true
    · cases acc with
      | none =>
        have hstep : lcBestStep none hd = some (hd.1, hd.2.activeConns) := by
          simp [lcBestStep, hh]
        rw [hstep] at h
        rcases ih _ i c h with heq | ⟨b, hmem, hb⟩
        · injection heq with heq2
          injection heq2 with hi _
          exact Or.inr ⟨hd.2, by rw [← hi]; exact List.mem_cons_self _ _, hh⟩
        · exact Or.inr ⟨b, List.mem_cons_of_mem _ hmem, hb⟩
      | some b0 =>
        by_cases hlt : hd.2.activeConns < b0.2
        · have hstep : lcBestStep (some b0) hd = some (hd.1, hd.2.activeConns) := by
            simp [lcBestStep, hh, hlt]
          rw [hstep] at h
          rcases ih _ i c h with heq | ⟨b, hmem, hb⟩
          · injection heq with heq2
            injection heq2 with hi _
            exact Or.inr ⟨hd.2, by rw [← hi]; exact List.mem_cons_self _ _, hh⟩
          · exact Or.inr ⟨b, List.mem_cons_of_mem _ hmem, hb⟩
        · have hstep : lcBestStep (some b0) hd = some b0 := by
            simp [lcBestStep, hh, hlt]
          rw [hstep] at h
          rcases ih _ i c h with heq | ⟨b, hmem, hb⟩
          · exact Or.inl heq
          · exact Or.inr ⟨b, List.mem_cons_of_mem _ hmem, hb⟩
    · have hstep : lcBestStep acc hd = acc := by simp [lcBestStep, hh]
      rw [hstep] at h
      rcases ih _ i c h with heq | ⟨b, hmem, hb⟩
      · exact Or.inl heq
      · exact Or.inr ⟨b, List.mem_cons_of_mem _ hmem, hb⟩

/-! ## Lemmas about raise and the selectable index list -/

theorem wrrRaise_length (es : List WrrEntry) : (wrrRaise es).length = es.length := by
  unfold wrrRaise
  exact List.length_map _ _

theorem wrrRaise_getD (es : List WrrEntry) (i : Nat) (h : i < es.length) :
    (wrrRaise es).getD i default =
      (if (es.getD i default).backend.healthy then
        { es.getD i default with
          currentWeight := (es.getD i default).currentWeight +
            (es.getD i default).backend.weight }
      else es.getD i default) := by
  unfold wrrRaise
  rw [getD_map_lt _ _ _ h default default]

theorem wrrRaise_getD_backend (es : List WrrEntry) (i : Nat) (h : i < es.length) :
    ((wrrRaise es).getD i default).backend = (es.getD i default).backend := by
  rw [wrrRaise_getD es i h]
  split <;> rfl

theorem selectableIdxs_mem_selectable (bs : List Backend) (i : Nat)
    (h : i ∈ selectableIdxs bs) : (bs.getD i default).selectable = true := by
  have := List.of_mem_filter h
  simpa using this

theorem selectableIdxs_getD_mem (bs : List Backend) (pos : Nat)
    (h : pos < (selectableIdxs bs).length) :
    (selectableIdxs bs).getD pos 0 ∈ selectableIdxs bs := by
  rw [List.getD_eq_getElem?_getD, List.getElem?_eq_getElem h]
  exact List.getElem_mem h

/-! ## C1 — health of the backend returned by next() -/

/-- A healthy but administratively blocked backend, the C1 failure case. -/
def blockedBackend : Backend :=
  ⟨⟨"http", "a:80", "", ""⟩, "http://a:80", 1, true, true, 0, 0, 0⟩

/-- C1 counterexample: WeightedRoundRobin filters only on the healthy flag,
so over a list holding a single healthy-but-blocked backend its `Next`
succeeds and returns that blocked backend, contradicting the claim that a
backend with blocked = true is never returned by any policy variant. -/
theorem C1_counterexample :
    ((Picker.weightedRoundRobin (NewWeightedRoundRobin [blockedBackend])).next.toOption.map
        Prod.fst) = some 0
  ∧ blockedBackend.healthy = true
  ∧ blockedBackend.blocked = true := by
  exact ⟨by decide, rfl, rfl⟩

/-- C1 amended: every backend returned by a successful `next()` satisfies
is_healthy() = true under all three policies; RoundRobin (through
`healthySubset`) additionally guarantees is_blocked() = false, while
WeightedRoundRobin and LeastConnections do not consult the blocked flag
and may return a healthy, blocked backend. -/
theorem C1_chosen_backend_health (p : Picker) (i : Nat) (p2 : Picker)
    (h : p.next = .ok (i, p2)) :
    (p.backends.getD i default).healthy = true
  ∧ (∀ r, p = .roundRobin r → (p.backends.getD i default).blocked = false) := by
  cases p with
  | roundRobin r =>
    have hr : ∃ r2, r.next = .ok (i, r2) := by
      simp only [Picker.next] at h
      cases hn : r.next with
      | error e =>
        rw [hn] at h
        simp only [Except.map] at h
        exact Except.noConfusion h
      | ok v =>
        obtain ⟨vi, vs⟩ := v
        rw [hn] at h
        simp only [Except.map] at h
        injection h with h2
        injection h2 with h3 h4
        subst h3
        exact ⟨vs, rfl⟩
    obtain ⟨r2, hr⟩ := hr
    simp only [RoundRobin.next] at hr
    by_cases hk : (selectableIdxs r.backends).length = 0
    · rw [if_pos hk] at hr
      exact Except.noConfusion hr
    · rw [if_neg hk] at hr
      injection hr with hr2
      injection hr2 with hi _
      have hpos : ((r.counter + 1) % U64 + (U64 - 1)) % U64 % (selectableIdxs r.backends).length
          < (selectableIdxs r.backends).length := Nat.mod_lt _ (Nat.pos_of_ne_zero hk)
      have hmem := selectableIdxs_getD_mem r.backends _ hpos
      rw [hi] at hmem
      have hsel := selectableIdxs_mem_selectable r.backends i hmem
      unfold Backend.selectable at hsel
      simp only [Bool.and_eq_true, Bool.not_eq_true'] at hsel
      exact ⟨hsel.1, fun _ _ => hsel.2⟩
  | weightedRoundRobin w =>
    have hw : ∃ w2, w.next = .ok (i, w2) := by
      simp only [Picker.next] at h
      cases hn : w.next with
      | error e =>
        rw [hn] at h
        simp only [Except.map] at h
        exact Except.noConfusion h
      | ok v =>
        obtain ⟨vi, vs⟩ := v
        rw [hn] at h
        simp only [Except.map] at h
        injection h with h2
        injection h2 with h3 h4
        subst h3
        exact ⟨vs, rfl⟩
    obtain ⟨w2, hw⟩ := hw
    simp only [WeightedRoundRobin.next] at hw
    cases hb : wrrBest (wrrRaise w.entries).enum with
    | none => rw [hb] at hw; exact Except.noConfusion hw
    | some v =>
      obtain ⟨vb, vc⟩ := v
      rw [hb] at hw
      dsimp only at hw
      injection hw with hw2
      injection hw2 with hi _
      obtain ⟨⟨e, hmem, he1, _⟩, _⟩ := wrrBest_some_spec _ vb vc hb
      obtain ⟨hlt, hgd⟩ := mem_enum_getD _ _ _ hmem
      have hlen : vb < w.entries.length := by
        rw [wrrRaise_length] at hlt
        exact hlt
      have hback : ((wrrRaise w.entries).getD vb default).backend =
          (w.entries.getD vb default).backend := wrrRaise_getD_backend _ _ hlen
      rw [hgd] at hback
      constructor
      · show ((Picker.weightedRoundRobin w).backends.getD i default).healthy = true
        unfold Picker.backends
        rw [← hi, getD_map_lt _ _ _ hlen default default, ← hback]
        exact he1
      · intro r hr
        exact Picker.noConfusion hr
  | leastConnections l =>
    have hl : ∃ l2, l.next = .ok (i, l2) := by
      simp only [Picker.next] at h
      cases hn : l.next with
      | error e =>
        rw [hn] at h
        simp only [Except.map] at h
        exact Except.noConfusion h
      | ok v =>
        obtain ⟨vi, vs⟩ := v
        rw [hn] at h
        simp only [Except.map] at h
        injection h with h2
        injection h2 with h3 h4
        subst h3
        exact ⟨vs, rfl⟩
    obtain ⟨l2, hl⟩ := hl
    simp only [LeastConnections.next] at hl
    cases hb : lcBest l.backends.enum with
    | none => rw [hb] at hl; exact Except.noConfusion hl
    | some v =>
      obtain ⟨vb, vc⟩ := v
      rw [hb] at hl
      dsimp only at hl
      injection hl with hl2
      injection hl2 with hi _
      rcases lcBest_fold_healthy l.backends.enum none vb vc hb with
        heq | ⟨b, hmem, hbh⟩
      · exact Option.noConfusion heq
      · obtain ⟨hlt, hgd⟩ := mem_enum_getD _ _ _ hmem
        constructor
        · show ((Picker.leastConnections l).backends.getD i default).healthy = true
          unfold Picker.backends
          rw [← hi, hgd]
          exact hbh
        · intro r hr
          exact Picker.noConfusion hr

/-- C1 witness: evaluation at a RoundRobin picker over one healthy
backend, whose first selection returns index zero. -/
theorem C1_witness :
    ((Picker.roundRobin (NewRoundRobin [sampleBackend])).backends.getD 0 default).healthy = true
  ∧ ((Picker.roundRobin (NewRoundRobin [sampleBackend])).backends.getD 0 default).blocked = false := by
  have h := C1_chosen_backend_health (Picker.roundRobin (NewRoundRobin [sampleBackend])) 0
    (Picker.roundRobin ⟨[{ sampleBackend with activeConns := 1 }], 1⟩) (by rfl)
  exact ⟨h.1, h.2 _ rfl⟩

/-! ## C10 — zero-sum invariant of the smooth WRR current weights -/

/-- Sum of the current weights over the WRR entry array. -/
def wrrCurrentSum (es : List WrrEntry) : Int :=
  (es.map fun e => e.currentWeight).sum

theorem wrrTotal_cons (e : WrrEntry) (es : List WrrEntry) :
    wrrTotal (e :: es) =
      (if e.backend.healthy then e.backend.weight else 0) + wrrTotal es := by
  unfold wrrTotal
  rw [List.filter_cons]
  by_cases h : e.backend.healthy = true
  · rw [if_pos (by simp [h]), if_pos h]
    simp
  · rw [if_neg (by simp [h]), if_neg h]
    simp

theorem wrrRaise_cons (e : WrrEntry) (t : List WrrEntry) :
    wrrRaise (e :: t) =
      (if e.backend.healthy then
        { e with currentWeight := e.currentWeight + e.backend.weight }
      else e) :: wrrRaise t := rfl

theorem wrrCurrentSum_cons (e : WrrEntry) (t : List WrrEntry) :
    wrrCurrentSum (e :: t) = e.currentWeight + wrrCurrentSum t := by
  unfold wrrCurrentSum
  rw [List.map_cons, List.sum_cons]

theorem wrrCurrentSum_raise (es : List WrrEntry) :
    wrrCurrentSum (wrrRaise es) = wrrCurrentSum es + wrrTotal es := by
  induction es with
  | nil => rfl
  | cons e t ih =>
    rw [wrrRaise_cons, wrrCurrentSum_cons, wrrCurrentSum_cons, wrrTotal_cons]
    by_cases h : e.backend.healthy = true
    · rw [if_pos h, if_pos h]
      dsimp only
      rw [ih]
      ring
    · rw [if_neg h, if_neg h]
      rw [ih]
      ring

theorem wrrCurrentSum_modify (es : List WrrEntry) (i : Nat) (f : WrrEntry → WrrEntry)
    (h : i < es.length) :
    wrrCurrentSum (listModify es i f) =
      wrrCurrentSum es - (es.getD i default).currentWeight +
        (f (es.getD i default)).currentWeight := by
  induction es generalizing i with
  | nil => simp at h
  | cons e t ih =>
    cases i with
    | zero =>
      unfold wrrCurrentSum listModify
      simp only [List.map_cons, List.sum_cons, List.getD_cons_zero]
      ring
    | succ n =>
      unfold wrrCurrentSum listModify
      simp only [List.map_cons, List.sum_cons, List.getD_cons_succ]
      have := ih n (by simpa using h)
      unfold wrrCurrentSum at this
      rw [this]
      ring

/-- A successful `WeightedRoundRobin.Next` preserves the sum of current
weights: the raise adds the healthy total and the winner update subtracts
the same total. -/
theorem wrr_next_preserves_sum (st st2 : WeightedRoundRobin) (bi : Nat)
    (h : st.next = .ok (bi, st2)) :
    wrrCurrentSum st2.entries = wrrCurrentSum st.entries := by
  simp only [WeightedRoundRobin.next] at h
  cases hb : wrrBest (wrrRaise st.entries).enum with
  | none => rw [hb] at h; exact Except.noConfusion h
  | some v =>
    obtain ⟨vb, vc⟩ := v
    rw [hb] at h
    dsimp only at h
    injection h with h2
    injection h2 with hbi hst
    obtain ⟨⟨e, hmem, _, _⟩, _⟩ := wrrBest_some_spec _ vb vc hb
    obtain ⟨hlt, _⟩ := mem_enum_getD _ _ _ hmem
    rw [← hst]
    show wrrCurrentSum (listModify (wrrRaise st.entries) vb _) = _
    rw [wrrCurrentSum_modify _ _ _ hlt]
    dsimp only
    rw [wrrCurrentSum_raise]
    ring

/-- C10: with every backend in the list healthy, the sum of current_weight
over all WRR entries is zero after construction and zero again after every
sequence of next() calls (each call adds the total weight to the entries
and subtracts the same total from the winner). -/
theorem C10_wrr_zero_sum_invariant (bs : List Backend) (m : Nat)
    (_hh : ∀ b ∈ bs, b.healthy = true) :
    wrrCurrentSum (NewWeightedRoundRobin bs).entries = 0
  ∧ wrrCurrentSum (((NewWeightedRoundRobin bs).run m).2).entries = 0 := by
  have hc : wrrCurrentSum (NewWeightedRoundRobin bs).entries = 0 := by
    unfold wrrCurrentSum NewWeightedRoundRobin
    rw [List.map_map]
    exact List.sum_eq_zero fun x hx => by
      obtain ⟨b, _, hb⟩ := List.mem_map.1 hx
      rw [← hb]
      rfl
  refine ⟨hc, ?_⟩
  induction m with
  | zero => exact hc
  | succ n ih =>
    show wrrCurrentSum ((WeightedRoundRobin.run _ (n + 1)).2).entries = 0
    rw [WeightedRoundRobin.run]
    cases hn : ((NewWeightedRoundRobin bs).run n).2.next with
    | error e => exact ih
    | ok v =>
      obtain ⟨vi, vs⟩ := v
      rw [wrr_next_preserves_sum _ vs vi hn]
      exact ih

/-- C10 witness: evaluation of the invariant over a two-backend healthy
list after three calls. -/
theorem C10_witness :
    wrrCurrentSum (((NewWeightedRoundRobin [sampleBackend,
      { sampleBackend with rawURL := "http://b2:80", weight := 2 }]).run 3).2).entries = 0 :=
  (C10_wrr_zero_sum_invariant _ 3 (by
    intro b hb
    rcases List.mem_cons.1 hb with rfl | hb2
    · rfl
    · rcases List.mem_cons.1 hb2 with rfl | hb3
      · rfl
      · simp at hb3)).2

/-! ## C5 — RoundRobin selection formula and window fairness -/

theorem selectableIdxs_cons (b : Backend) (t : List Backend) :
    selectableIdxs (b :: t) =
      (if b.selectable then (0 : Nat) :: (selectableIdxs t).map Nat.succ
       else (selectableIdxs t).map Nat.succ) := by
  unfold selectableIdxs
  rw [List.length_cons, List.range_succ_eq_map, List.filter_cons, List.filter_map]
  have hcongr :
      (List.filter ((fun i => ((b :: t).getD i default).selectable) ∘ Nat.succ)
        (List.range t.length)) =
      List.filter (fun i => (t.getD i default).selectable) (List.range t.length) :=
    List.filter_congr fun x _ => rfl
  rw [hcongr]
  by_cases hb : b.selectable = true
  · rw [if_pos (by simpa using hb), if_pos hb]
  · rw [if_neg (by simpa using hb), if_neg hb]

theorem healthySubset_eq_map_selectableIdxs (bs : List Backend) :
    healthySubset bs = (selectableIdxs bs).map fun i => bs.getD i default := by
  induction bs with
  | nil => rfl
  | cons b t ih =>
    rw [selectableIdxs_cons]
    unfold healthySubset at ih ⊢
    rw [List.filter_cons]
    by_cases hb : b.selectable = true
    · rw [if_pos hb, if_pos hb, List.map_cons]
      congr 1
      rw [List.map_map]
      rw [show ((fun i => ((b :: t).getD i default)) ∘ Nat.succ) =
            (fun i => t.getD i default) from funext fun i => rfl]
      exact ih
    · rw [if_neg hb, if_neg hb, List.map_map]
      rw [show ((fun i => ((b :: t).getD i default)) ∘ Nat.succ) =
            (fun i => t.getD i default) from funext fun i => rfl]
      exact ih

theorem selectableIdxs_nodup (bs : List Backend) : (selectableIdxs bs).Nodup :=
  (List.nodup_range bs.length).filter _

theorem selectableIdxs_lt (bs : List Backend) (i : Nat)
    (h : i ∈ selectableIdxs bs) : i < bs.length :=
  List.mem_range.1 (List.mem_of_mem_filter h)

theorem rr_idx_eq (c : Nat) (hc : c < U64) :
    ((c + 1) % U64 + (U64 - 1)) % U64 = c := by
  have h64 : U64 = 18446744073709551616 := by norm_num [U64]
  rw [h64] at hc ⊢
  omega

theorem rr_next_err (st : RoundRobin)
    (hk : (selectableIdxs st.backends).length = 0) : st.next = .error () := by
  simp only [RoundRobin.next]
  rw [if_pos hk]

theorem rr_next_spec (st : RoundRobin) (hc : st.counter < U64)
    (hk : (selectableIdxs st.backends).length ≠ 0) :
    st.next = .ok ((selectableIdxs st.backends).getD
        (st.counter % (selectableIdxs st.backends).length) 0,
      ⟨listModify st.backends
        ((selectableIdxs st.backends).getD
          (st.counter % (selectableIdxs st.backends).length) 0) Backend.incConns,
       (st.counter + 1) % U64⟩) := by
  simp only [RoundRobin.next]
  rw [if_neg hk, rr_idx_eq st.counter hc]

theorem selectableIdxs_modify_incConns (bs : List Backend) (i : Nat) :
    selectableIdxs (listModify bs i Backend.incConns) = selectableIdxs bs := by
  unfold selectableIdxs
  rw [listModify_length]
  refine List.filter_congr fun j hj => ?_
  have hjlen : j < bs.length := List.mem_range.1 hj
  by_cases hji : j = i
  · subst hji
    rw [listModify_getD_self _ _ _ _ hjlen]
    rfl
  · rw [listModify_getD_ne _ _ _ _ _ hji]

theorem rr_run_spec (bs : List Backend) (c0 m : Nat)
    (hc0 : c0 < U64) (hwrap : c0 + m ≤ U64)
    (hk : (selectableIdxs bs).length ≠ 0) :
    ∀ t, t ≤ m →
      selectableIdxs (((RoundRobin.mk bs c0).run t).2).backends = selectableIdxs bs
    ∧ (((RoundRobin.mk bs c0).run t).2).counter = (c0 + t) % U64
    ∧ ((RoundRobin.mk bs c0).run t).1 =
        (List.range t).map (fun s =>
          (selectableIdxs bs).getD ((c0 + s) % (selectableIdxs bs).length) 0) := by
  intro t
  induction t with
  | zero =>
    intro _
    exact ⟨rfl, (Nat.mod_eq_of_lt hc0).symm, rfl⟩
  | succ t ih =>
    intro ht
    obtain ⟨ha, hb, hc⟩ := ih (Nat.le_of_succ_le ht)
    have hlt : c0 + t < U64 := by omega
    have hcnt : (((RoundRobin.mk bs c0).run t).2).counter = c0 + t := by
      rw [hb, Nat.mod_eq_of_lt hlt]
    have hnext := rr_next_spec (((RoundRobin.mk bs c0).run t).2)
      (by rw [hcnt]; exact hlt) (by rw [ha]; exact hk)
    rw [hcnt, ha] at hnext
    show _ ∧ _ ∧ _
    rw [RoundRobin.run]
    rw [hnext]
    refine ⟨?_, ?_, ?_⟩
    · dsimp only
      rw [selectableIdxs_modify_incConns]
      exact ha
    · dsimp only
      rw [Nat.add_assoc]
    · dsimp only
      rw [hc, List.range_succ, List.map_append]
      rfl

theorem countP_mod_block (k c p : Nat) (hk : 0 < k) (hp : p < k) :
    (List.range k).countP (fun s => decide ((c + s) % k = p)) = 1 := by
  have hr : c % k < k := Nat.mod_lt c hk
  set t0 : Nat := if c % k ≤ p then p - c % k else p + k - c % k with ht0def
  have ht0 : t0 < k := by
    rw [ht0def]
    split <;> omega
  have hsat : (c + t0) % k = p := by
    rw [Nat.add_mod, Nat.mod_eq_of_lt ht0]
    rw [ht0def]
    by_cases hle : c % k ≤ p
    · rw [if_pos hle]
      rw [show c % k + (p - c % k) = p from by omega]
      exact Nat.mod_eq_of_lt hp
    · rw [if_neg hle]
      rw [show c % k + (p + k - c % k) = p + k from by omega]
      rw [Nat.add_mod_right]
      exact Nat.mod_eq_of_lt hp
  have huniq : ∀ s, s < k → (c + s) % k = p → s = t0 := by
    intro s hs hsp
    have : (c + s) % k = (c + t0) % k := by rw [hsp, hsat]
    have hmod : s % k = t0 % k :=
      Nat.ModEq.add_left_cancel' c this
    rwa [Nat.mod_eq_of_lt hs, Nat.mod_eq_of_lt ht0] at hmod
  have hcongr : (List.range k).countP (fun s => decide ((c + s) % k = p)) =
      (List.range k).countP (fun s => s == t0) := by
    refine List.countP_congr fun x hx => ?_
    have hxk : x < k := List.mem_range.1 hx
    simp only [decide_eq_true_eq, beq_iff_eq]
    constructor
    · exact huniq x hxk
    · intro he
      rw [he]
      exact hsat
  rw [hcongr]
  rw [show (fun s => s == t0) = fun s => s == t0 from rfl]
  rw [← List.count_eq_countP]
  exact List.count_eq_one_of_mem (List.nodup_range k) (List.mem_range.2 ht0)

theorem countP_mod_range (k c0 p n : Nat) (hk : 0 < k) (hp : p < k) :
    (List.range (n * k)).countP (fun s => decide ((c0 + s) % k = p)) = n := by
  induction n with
  | zero => rw [Nat.zero_mul]; rfl
  | succ n ih =>
    rw [show (n + 1) * k = n * k + k from by ring, List.range_add,
        List.countP_append, ih, List.countP_map]
    have : (List.range k).countP
        ((fun s => decide ((c0 + s) % k = p)) ∘ (fun x => n * k + x)) =
        (List.range k).countP (fun s => decide ((c0 + n * k + s) % k = p)) := by
      refine List.countP_congr fun x _ => ?_
      simp only [Function.comp]
      rw [show c0 + (n * k + x) = c0 + n * k + x from by ring]
    rw [this, countP_mod_block _ _ _ hk hp]

/-- C5: each RoundRobin next() call computes the selectable subset in
declared order and fails when it is empty; otherwise it returns the
subset entry at position (c-1) mod |subset| where c is the incremented
counter value (equivalently, the pre-call counter value modulo the subset
size); consequently any window of n times k consecutive sequential calls
over a stable selectable set of size k selects each selectable backend
exactly n times (stated within one epoch of the 64-bit counter: the
window does not cross the wrap at 2^64, which would require more than
2^64 calls). -/
theorem C5_round_robin_selection (bs : List Backend) (c0 n p : Nat)
    (hc0 : c0 < U64)
    (hwrap : c0 + n * (selectableIdxs bs).length ≤ U64)
    (hp : p < (selectableIdxs bs).length) :
    (∀ (bs2 : List Backend) (c2 : Nat), (selectableIdxs bs2).length = 0 →
        (RoundRobin.mk bs2 c2).next = .error ())
  ∧ (∃ st2, (RoundRobin.mk bs c0).next =
        .ok ((selectableIdxs bs).getD (c0 % (selectableIdxs bs).length) 0, st2))
  ∧ (healthySubset bs).getD (c0 % (selectableIdxs bs).length) default =
      bs.getD ((selectableIdxs bs).getD (c0 % (selectableIdxs bs).length) 0) default
  ∧ ((RoundRobin.mk bs c0).run (n * (selectableIdxs bs).length)).1.count
      ((selectableIdxs bs).getD p 0) = n := by
  have hkpos : 0 < (selectableIdxs bs).length := lt_of_le_of_lt (Nat.zero_le _) hp
  have hkne : (selectableIdxs bs).length ≠ 0 := Nat.pos_iff_ne_zero.mp hkpos
  refine ⟨fun bs2 c2 h => rr_next_err _ h, ?_, ?_, ?_⟩
  · exact ⟨_, rr_next_spec (RoundRobin.mk bs c0) hc0 hkne⟩
  · rw [healthySubset_eq_map_selectableIdxs]
    exact getD_map_lt _ _ _ (Nat.mod_lt _ hkpos) default 0
  · obtain ⟨_, _, hrun⟩ := rr_run_spec bs c0 (n * (selectableIdxs bs).length)
      hc0 hwrap hkne (n * (selectableIdxs bs).length) (le_refl _)
    rw [hrun]
    rw [List.count_eq_countP, List.countP_map]
    have hcongr : (List.range (n * (selectableIdxs bs).length)).countP
        ((fun x => x == (selectableIdxs bs).getD p 0) ∘ fun s =>
          (selectableIdxs bs).getD ((c0 + s) % (selectableIdxs bs).length) 0) =
        (List.range (n * (selectableIdxs bs).length)).countP
          (fun s => decide ((c0 + s) % (selectableIdxs bs).length = p)) := by
      refine List.countP_congr fun x _ => ?_
      simp only [Function.comp, beq_iff_eq, decide_eq_true_eq]
      have hmodlt : (c0 + x) % (selectableIdxs bs).length <
          (selectableIdxs bs).length := Nat.mod_lt _ hkpos
      rw [List.getD_eq_getElem _ _ hmodlt, List.getD_eq_getElem _ _ hp]
      exact (selectableIdxs_nodup bs).getElem_inj_iff
    rw [hcongr]
    exact countP_mod_range _ _ _ _ hkpos hp

/-- C5 witness: two selectable backends, a window of four calls starting
after one prior call, each backend selected twice. -/
theorem C5_witness :
    ((RoundRobin.mk [sampleBackend,
        { sampleBackend with rawURL := "http://b2:80" }] 1).run 4).1.count
      ((selectableIdxs [sampleBackend,
        { sampleBackend with rawURL := "http://b2:80" }]).getD 0 0) = 2 :=
  (C5_round_robin_selection [sampleBackend,
      { sampleBackend with rawURL := "http://b2:80" }] 1 2 0
    (by decide) (by decide) (by decide)).2.2.2

/-! ## C4 — smooth weighted-round-robin window fairness

The development below proves the nginx smooth-WRR fairness property for
the source `WeightedRoundRobin.Next`: starting from construction, over
any window of `T = Σ_{healthy} w_i` consecutive calls, the healthy entry
`i` is selected exactly `w_i` times.  The proof establishes (a) a
pointwise characterisation of one step, (b) that within the first `T`
steps no entry exceeds its weight (the winner always has a positive
raised weight, while an entry at quota would be nonpositive), (c) that
the state returns to all-zero current weights after exactly `T` steps,
and (d) that the selection sequence depends only on the health, weight
and current-weight projection of the state, so every period repeats the
same selections and any window decomposes into a suffix and a prefix of
the same period. -/

/-- Health flag of the entry at position `i`. -/
def entryH (es : List WrrEntry) (i : Nat) : Bool := (es.getD i default).backend.healthy

/-- Weight of the entry at position `i`. -/
def entryW (es : List WrrEntry) (i : Nat) : Int := (es.getD i default).backend.weight

/-- Current weight of the entry at position `i`. -/
def entryC (es : List WrrEntry) (i : Nat) : Int := (es.getD i default).currentWeight

/-- Static (selection-relevant, call-invariant) part of one entry. -/
def wrrStatic (e : WrrEntry) : Bool × Int := (e.backend.healthy, e.backend.weight)

/-- Full selection-relevant projection of one entry. -/
def wrrProj (e : WrrEntry) : Bool × Int × Int :=
  (e.backend.healthy, e.backend.weight, e.currentWeight)

theorem map_eq_of_pointwise {α β : Type} [Inhabited α] (f : α → β) (l l2 : List α)
    (hlen : l.length = l2.length)
    (hpt : ∀ j, j < l.length → f (l.getD j default) = f (l2.getD j default)) :
    l.map f = l2.map f := by
  induction l generalizing l2 with
  | nil =>
    cases l2 with
    | nil => rfl
    | cons b t2 => simp at hlen
  | cons a t ih =>
    cases l2 with
    | nil => simp at hlen
    | cons b t2 =>
      rw [List.map_cons, List.map_cons]
      congr 1
      · exact hpt 0 (by simp)
      · refine ih t2 (by simpa using hlen) fun j hj => ?_
        exact hpt (j + 1) (by simpa using hj)

theorem static_pointwise (es es2 : List WrrEntry)
    (h : es.map wrrStatic = es2.map wrrStatic) :
    es.length = es2.length ∧ ∀ j, entryH es j = entryH es2 j ∧ entryW es j = entryW es2 j := by
  have hlen : es.length = es2.length := by
    have := congrArg List.length h
    simpa using this
  refine ⟨hlen, fun j => ?_⟩
  by_cases hj : j < es.length
  · have hse : (es.map wrrStatic).getD j default = (es2.map wrrStatic).getD j default := by
      rw [h]
    rw [getD_map_lt _ _ _ hj default default,
        getD_map_lt _ _ _ (hlen ▸ hj) default default] at hse
    exact ⟨congrArg Prod.fst hse, congrArg Prod.snd hse⟩
  · unfold entryH entryW
    simp only [List.getD_eq_getElem?_getD]
    rw [List.getElem?_eq_none (show es.length ≤ j by omega),
        List.getElem?_eq_none (show es2.length ≤ j by omega)]
    exact ⟨rfl, rfl⟩

theorem proj_pointwise (es es2 : List WrrEntry)
    (h : es.map wrrProj = es2.map wrrProj) :
    es.length = es2.length ∧
      ∀ j, entryH es j = entryH es2 j ∧ entryW es j = entryW es2 j ∧
        entryC es j = entryC es2 j := by
  have hlen : es.length = es2.length := by
    have := congrArg List.length h
    simpa using this
  refine ⟨hlen, fun j => ?_⟩
  by_cases hj : j < es.length
  · have hse : (es.map wrrProj).getD j default = (es2.map wrrProj).getD j default := by
      rw [h]
    rw [getD_map_lt _ _ _ hj default default,
        getD_map_lt _ _ _ (hlen ▸ hj) default default] at hse
    exact ⟨congrArg Prod.fst hse, congrArg (fun t => t.2.1) hse,
      congrArg (fun t => t.2.2) hse⟩
  · unfold entryH entryW entryC
    simp only [List.getD_eq_getElem?_getD]
    rw [List.getElem?_eq_none (show es.length ≤ j by omega),
        List.getElem?_eq_none (show es2.length ≤ j by omega)]
    exact ⟨rfl, rfl, rfl⟩

theorem static_of_proj (es es2 : List WrrEntry)
    (h : es.map wrrProj = es2.map wrrProj) :
    es.map wrrStatic = es2.map wrrStatic := by
  have hpt := proj_pointwise es es2 h
  refine map_eq_of_pointwise _ _ _ hpt.1 fun j hj => ?_
  have := hpt.2 j
  unfold wrrStatic
  unfold entryH entryW at this
  rw [this.1, this.2.1]

theorem wrrTotal_eq_sum (es : List WrrEntry) :
    wrrTotal es =
      ∑ j ∈ Finset.range es.length, (if entryH es j then entryW es j else 0) := by
  induction es with
  | nil => rfl
  | cons e t ih =>
    rw [wrrTotal_cons, List.length_cons, Finset.sum_range_succ']
    have hshift : ∀ j ∈ Finset.range t.length,
        (if entryH (e :: t) (j + 1) then entryW (e :: t) (j + 1) else 0) =
        (if entryH t j then entryW t j else 0) := fun j _ => rfl
    rw [Finset.sum_congr rfl hshift, ← ih]
    have h0 : (if entryH (e :: t) 0 then entryW (e :: t) 0 else 0) =
        (if e.backend.healthy then e.backend.weight else 0) := rfl
    rw [h0]
    ring

theorem wrrTotal_eq_of_static (es es2 : List WrrEntry)
    (h : es.map wrrStatic = es2.map wrrStatic) : wrrTotal es = wrrTotal es2 := by
  obtain ⟨hlen, hpt⟩ := static_pointwise es es2 h
  rw [wrrTotal_eq_sum, wrrTotal_eq_sum, hlen]
  refine Finset.sum_congr rfl fun j _ => ?_
  rw [(hpt j).1, (hpt j).2]

theorem wrrTotal_zero_of_unhealthy (es : List WrrEntry)
    (h : ∀ e ∈ es, e.backend.healthy = false) : wrrTotal es = 0 := by
  induction es with
  | nil => rfl
  | cons e t ih =>
    rw [wrrTotal_cons, if_neg (by simp [h e (List.mem_cons_self _ _)]),
        ih fun x hx => h x (List.mem_cons_of_mem _ hx)]
    ring

/-- Pointwise characterisation of one successful `WeightedRoundRobin.Next`
step: the winner is a healthy in-range entry whose raised weight is
maximal among healthy entries; healthy entries are raised, the winner
additionally pays the total, and everything static is unchanged. -/
theorem wrr_next_ok (st st2 : WeightedRoundRobin) (bi : Nat)
    (h : st.next = .ok (bi, st2)) :
    bi < st.entries.length
  ∧ entryH st.entries bi = true
  ∧ st2.entries.length = st.entries.length
  ∧ (∀ j, j < st.entries.length →
        entryH st2.entries j = entryH st.entries j ∧
        entryW st2.entries j = entryW st.entries j)
  ∧ (∀ j, j < st.entries.length →
        entryC st2.entries j =
          if j = bi then entryC st.entries j + entryW st.entries j - wrrTotal st.entries
          else if entryH st.entries j then entryC st.entries j + entryW st.entries j
          else entryC st.entries j)
  ∧ (∀ j, j < st.entries.length → entryH st.entries j = true →
        entryC st.entries j + entryW st.entries j ≤
          entryC st.entries bi + entryW st.entries bi) := by
  simp only [WeightedRoundRobin.next] at h
  cases hb : wrrBest (wrrRaise st.entries).enum with
  | none => rw [hb] at h; exact Except.noConfusion h
  | some v =>
    obtain ⟨vb, vc⟩ := v
    rw [hb] at h
    dsimp only at h
    injection h with h2
    injection h2 with hbi hst
    subst hbi
    obtain ⟨⟨e, hmem, heH, heC⟩, hmax⟩ := wrrBest_some_spec _ vb vc hb
    obtain ⟨hltr, hgd⟩ := mem_enum_getD _ _ _ hmem
    have hlen : vb < st.entries.length := by rwa [wrrRaise_length] at hltr
    have hbackend : ((wrrRaise st.entries).getD vb default).backend =
        (st.entries.getD vb default).backend := wrrRaise_getD_backend _ _ hlen
    have hbiH : entryH st.entries vb = true := by
      unfold entryH
      rw [← hbackend, hgd]
      exact heH
    have hraisedbi : ((wrrRaise st.entries).getD vb default).currentWeight =
        entryC st.entries vb + entryW st.entries vb := by
      rw [wrrRaise_getD _ _ hlen, if_pos (by exact hbiH)]
      rfl
    have hvc : vc = entryC st.entries vb + entryW st.entries vb := by
      rw [← heC, ← hgd, hraisedbi]
    refine ⟨hlen, hbiH, ?_, ?_, ?_, ?_⟩
    · rw [← hst]
      show (listModify (wrrRaise st.entries) vb _).length = _
      rw [listModify_length, wrrRaise_length]
    · intro j hj
      rw [← hst]
      show entryH (listModify (wrrRaise st.entries) vb _) j = _ ∧
           entryW (listModify (wrrRaise st.entries) vb _) j = _
      unfold entryH entryW
      by_cases hji : j = vb
      · subst hji
        rw [listModify_getD_self _ _ _ _ (by rwa [wrrRaise_length])]
        dsimp only
        constructor
        · show ((wrrRaise st.entries).getD j default).backend.incConns.healthy = _
          rw [show ∀ b : Backend, b.incConns.healthy = b.healthy from fun _ => rfl,
              wrrRaise_getD_backend _ _ hj]
        · show ((wrrRaise st.entries).getD j default).backend.incConns.weight = _
          rw [show ∀ b : Backend, b.incConns.weight = b.weight from fun _ => rfl,
              wrrRaise_getD_backend _ _ hj]
      · rw [listModify_getD_ne _ _ _ _ _ hji]
        rw [show ((wrrRaise st.entries).getD j default).backend =
            (st.entries.getD j default).backend from wrrRaise_getD_backend _ _ hj]
        exact ⟨rfl, rfl⟩
    · intro j hj
      rw [← hst]
      show entryC (listModify (wrrRaise st.entries) vb _) j = _
      unfold entryC
      by_cases hji : j = vb
      · subst hji
        rw [listModify_getD_self _ _ _ _ (by rwa [wrrRaise_length]), if_pos rfl]
        dsimp only
        rw [hraisedbi]
        rfl
      · rw [listModify_getD_ne _ _ _ _ _ hji, if_neg hji, wrrRaise_getD _ _ hj]
        by_cases hH : entryH st.entries j = true
        · rw [if_pos (by exact hH), if_pos hH]
          rfl
        · rw [if_neg (by exact hH), if_neg hH]
    · intro j hj hH
      have hmemj : (j, (wrrRaise st.entries).getD j default) ∈ (wrrRaise st.entries).enum := by
        apply List.mem_enum_iff_getElem?.mpr
        rw [List.getElem?_eq_getElem (by rwa [wrrRaise_length])]
        rw [List.getD_eq_getElem _ _ (by rwa [wrrRaise_length])]
      have hHr : ((wrrRaise st.entries).getD j default).backend.healthy = true := by
        rw [wrrRaise_getD_backend _ _ hj]
        exact hH
      have := hmax _ hmemj hHr
      rw [hvc] at this
      calc entryC st.entries j + entryW st.entries j
        = ((wrrRaise st.entries).getD j default).currentWeight := by
            rw [wrrRaise_getD _ _ hj, if_pos (by exact hH)]
            rfl
        _ ≤ entryC st.entries vb + entryW st.entries vb := this

/-! ### Congruence: selection depends only on the health/weight/current-weight projection -/

/-- Action of the raise step on the projection. -/
def projRaise (t : Bool × Int × Int) : Bool × Int × Int :=
  (t.1, t.2.1, if t.1 then t.2.2 + t.2.1 else t.2.2)

theorem wrrRaise_map_proj (es : List WrrEntry) :
    (wrrRaise es).map wrrProj = (es.map wrrProj).map projRaise := by
  unfold wrrRaise
  rw [List.map_map, List.map_map]
  refine List.map_congr_left fun e _ => ?_
  by_cases h : e.backend.healthy = true
  · simp [wrrProj, projRaise, h]
  · simp [wrrProj, projRaise, h]

theorem enum_map_proj_eq (l l2 : List WrrEntry)
    (h : l.map wrrProj = l2.map wrrProj) :
    l.enum.map (Prod.map id wrrProj) = l2.enum.map (Prod.map id wrrProj) := by
  rw [← List.enum_map, ← List.enum_map, h]

theorem wrrBest_fold_congr (u : List (Nat × WrrEntry)) :
    ∀ (u2 : List (Nat × WrrEntry)),
      u.map (Prod.map id wrrProj) = u2.map (Prod.map id wrrProj) →
      ∀ acc, u.foldl wrrBestStep acc = u2.foldl wrrBestStep acc := by
  induction u with
  | nil =>
    intro u2 h acc
    cases u2 with
    | nil => rfl
    | cons b t2 => simp at h
  | cons a t ih =>
    intro u2 h acc
    cases u2 with
    | nil => simp at h
    | cons b t2 =>
      obtain ⟨a1, a2⟩ := a
      obtain ⟨b1, b2⟩ := b
      rw [List.map_cons, List.map_cons] at h
      injection h with hhead htail
      rw [List.foldl_cons, List.foldl_cons]
      have h1 : a1 = b1 := congrArg Prod.fst hhead
      have h2 : wrrProj a2 = wrrProj b2 := congrArg Prod.snd hhead
      have hh : a2.backend.healthy = b2.backend.healthy := congrArg Prod.fst h2
      have hcw : a2.currentWeight = b2.currentWeight := congrArg (fun t => t.2.2) h2
      have hstep : wrrBestStep acc (a1, a2) = wrrBestStep acc (b1, b2) := by
        unfold wrrBestStep
        dsimp only
        rw [h1, hh, hcw]
      rw [hstep]
      exact ih t2 htail _

theorem listModify_map_comm {α β : Type} (g : α → β) (f : α → α) (g2 : β → β)
    (hfg : ∀ a, g (f a) = g2 (g a)) (l : List α) (i : Nat) :
    (listModify l i f).map g = listModify (l.map g) i g2 := by
  induction l generalizing i with
  | nil => rfl
  | cons a t ih =>
    cases i with
    | zero =>
      rw [show listModify (a :: t) 0 f = f a :: t from rfl, List.map_cons,
          List.map_cons, show listModify (g a :: t.map g) 0 g2 = g2 (g a) :: t.map g from rfl,
          hfg a]
    | succ n =>
      rw [show listModify (a :: t) (n + 1) f = a :: listModify t n f from rfl,
          List.map_cons, List.map_cons,
          show listModify (g a :: t.map g) (n + 1) g2 = g a :: listModify (t.map g) n g2
            from rfl, ih n]

/-- One `Next` call on projection-equal states fails together or chooses
the same index and leaves projection-equal states. -/
theorem wrr_next_congr (st st2 : WeightedRoundRobin)
    (h : st.entries.map wrrProj = st2.entries.map wrrProj) :
    (st.next = .error () ∧ st2.next = .error ()) ∨
    (∃ bi r1 r2, st.next = .ok (bi, r1) ∧ st2.next = .ok (bi, r2) ∧
      r1.entries.map wrrProj = r2.entries.map wrrProj) := by
  have hraise : (wrrRaise st.entries).map wrrProj = (wrrRaise st2.entries).map wrrProj := by
    rw [wrrRaise_map_proj, wrrRaise_map_proj, h]
  have hbest : wrrBest (wrrRaise st.entries).enum = wrrBest (wrrRaise st2.entries).enum :=
    wrrBest_fold_congr _ _ (enum_map_proj_eq _ _ hraise) none
  have htot : wrrTotal st.entries = wrrTotal st2.entries :=
    wrrTotal_eq_of_static _ _ (static_of_proj _ _ h)
  cases hb : wrrBest (wrrRaise st.entries).enum with
  | none =>
    left
    constructor
    · simp only [WeightedRoundRobin.next]
      rw [hb]
    · simp only [WeightedRoundRobin.next]
      rw [← hbest, hb]
  | some v =>
    obtain ⟨vb, vc⟩ := v
    right
    refine ⟨vb,
      ⟨listModify (wrrRaise st.entries) vb fun e =>
        { backend := e.backend.incConns,
          currentWeight := e.currentWeight - wrrTotal st.entries }⟩,
      ⟨listModify (wrrRaise st2.entries) vb fun e =>
        { backend := e.backend.incConns,
          currentWeight := e.currentWeight - wrrTotal st2.entries }⟩, ?_, ?_, ?_⟩
    · simp only [WeightedRoundRobin.next]
      rw [hb]
    · simp only [WeightedRoundRobin.next]
      rw [← hbest, hb]
    · show (listModify (wrrRaise st.entries) vb fun e =>
          { backend := e.backend.incConns,
            currentWeight := e.currentWeight - wrrTotal st.entries }).map wrrProj =
        (listModify (wrrRaise st2.entries) vb fun e =>
          { backend := e.backend.incConns,
            currentWeight := e.currentWeight - wrrTotal st2.entries }).map wrrProj
      rw [listModify_map_comm wrrProj _
            (fun t => (t.1, t.2.1, t.2.2 - wrrTotal st.entries)) (fun a => rfl),
          listModify_map_comm wrrProj _
            (fun t => (t.1, t.2.1, t.2.2 - wrrTotal st2.entries)) (fun a => rfl),
          hraise, htot]

theorem exists_healthy_pointwise (es : List WrrEntry) :
    (∃ e ∈ es, e.backend.healthy = true) ↔
      ∃ j, j < es.length ∧ entryH es j = true := by
  constructor
  · rintro ⟨e, hmem, he⟩
    obtain ⟨i, hi, hget⟩ := List.mem_iff_getElem.1 hmem
    refine ⟨i, hi, ?_⟩
    unfold entryH
    rw [List.getD_eq_getElem _ _ hi, hget]
    exact he
  · rintro ⟨j, hj, hH⟩
    refine ⟨es.getD j default, ?_, hH⟩
    rw [List.getD_eq_getElem _ _ hj]
    exact List.getElem_mem hj

/-- With at least one healthy entry, `Next` always succeeds. -/
theorem wrr_next_ok_of_healthy (st : WeightedRoundRobin)
    (hex : ∃ e ∈ st.entries, e.backend.healthy = true) :
    ∃ bi st2, st.next = .ok (bi, st2) := by
  cases hb : wrrBest (wrrRaise st.entries).enum with
  | some v =>
    obtain ⟨vb, vc⟩ := v
    refine ⟨vb, ⟨listModify (wrrRaise st.entries) vb fun e =>
      { backend := e.backend.incConns,
        currentWeight := e.currentWeight - wrrTotal st.entries }⟩, ?_⟩
    simp only [WeightedRoundRobin.next]
    rw [hb]
  | none =>
    exfalso
    obtain ⟨j, hj, hH⟩ := (exists_healthy_pointwise _).1 hex
    have hall := ((wrrBest_fold (wrrRaise st.entries).enum none).1 hb).2
    have hmemj : (j, (wrrRaise st.entries).getD j default) ∈ (wrrRaise st.entries).enum := by
      apply List.mem_enum_iff_getElem?.mpr
      rw [List.getElem?_eq_getElem (by rwa [wrrRaise_length])]
      rw [List.getD_eq_getElem _ _ (by rwa [wrrRaise_length])]
    have := hall _ hmemj
    dsimp only at this
    rw [wrrRaise_getD_backend _ _ hj] at this
    unfold entryH at hH
    rw [hH] at this
    exact Bool.noConfusion this

/-- Runs started from projection-equal states choose the same index
sequence and stay projection-equal. -/
theorem wrr_run_congr (st st2 : WeightedRoundRobin)
    (h : st.entries.map wrrProj = st2.entries.map wrrProj) :
    ∀ m, (st.run m).1 = (st2.run m).1 ∧
      (st.run m).2.entries.map wrrProj = (st2.run m).2.entries.map wrrProj := by
  intro m
  induction m with
  | zero => exact ⟨rfl, h⟩
  | succ n ih =>
    obtain ⟨hl, hs⟩ := ih
    rw [WeightedRoundRobin.run, WeightedRoundRobin.run]
    rcases wrr_next_congr _ _ hs with ⟨he1, he2⟩ | ⟨bi, r1, r2, h1, h2, hp⟩
    · rw [he1, he2]
      exact ⟨hl, hs⟩
    · rw [h1, h2]
      dsimp only
      exact ⟨by rw [hl], hp⟩

/-- Run composition: the chosen indices of a long run are those of the
first segment followed by those of the rest, run from the reached state. -/
theorem wrr_run_add (st : WeightedRoundRobin) (a : Nat) :
    ∀ b, st.run (a + b) =
      ((st.run a).1 ++ ((st.run a).2.run b).1, ((st.run a).2.run b).2) := by
  intro b
  induction b with
  | zero =>
    show st.run a = _
    rw [show WeightedRoundRobin.run (st.run a).2 0 = ([], (st.run a).2) from rfl]
    rw [List.append_nil]
  | succ n ih =>
    rw [show a + (n + 1) = (a + n) + 1 from rfl, WeightedRoundRobin.run, ih]
    rw [show WeightedRoundRobin.run (st.run a).2 (n + 1) =
      (let x := (st.run a).2.run n
       match x.2.next with
       | .error _ => x
       | .ok (i, s2) => (x.1 ++ [i], s2)) from rfl]
    dsimp only
    cases hn : ((st.run a).2.run n).2.next with
    | error e => rfl
    | ok v =>
      obtain ⟨vi, vs⟩ := v
      dsimp only
      rw [List.append_assoc]

/-! ### The first period: no entry exceeds its weight, and the state
returns to zero after exactly the total number of steps -/

theorem sum_count_range (L : List Nat) (n : Nat) (h : ∀ x ∈ L, x < n) :
    (∑ j ∈ Finset.range n, L.count j) = L.length := by
  induction L with
  | nil => simp
  | cons x t ih =>
    have hx : x < n := h x (List.mem_cons_self _ _)
    have hsplit : ∀ j ∈ Finset.range n,
        List.count j (x :: t) = List.count j t + if x = j then 1 else 0 := by
      intro j _
      rw [List.count_cons]
      congr 1
      simp [beq_iff_eq]
    rw [Finset.sum_congr rfl hsplit, Finset.sum_add_distrib,
        ih fun y hy => h y (List.mem_cons_of_mem _ hy),
        Finset.sum_ite_eq (Finset.range n) x fun _ => 1,
        if_pos (Finset.mem_range.2 hx), List.length_cons]

theorem wrr_period_inv (es0 : List WrrEntry)
    (hw : ∀ j, j < es0.length → 1 ≤ entryW es0 j)
    (hc0 : ∀ j, j < es0.length → entryC es0 j = 0) :
    ∀ t, t ≤ (wrrTotal es0).toNat →
      ((WeightedRoundRobin.mk es0).run t).2.entries.map wrrStatic = es0.map wrrStatic
    ∧ ((WeightedRoundRobin.mk es0).run t).1.length = t
    ∧ (∀ x ∈ ((WeightedRoundRobin.mk es0).run t).1, x < es0.length ∧ entryH es0 x = true)
    ∧ (∀ j, j < es0.length → entryH es0 j = true →
         entryC ((WeightedRoundRobin.mk es0).run t).2.entries j =
           (t : Int) * entryW es0 j -
             ((((WeightedRoundRobin.mk es0).run t).1.count j : Int)) * wrrTotal es0
       ∧ ((((WeightedRoundRobin.mk es0).run t).1.count j : Int)) ≤ entryW es0 j)
    ∧ (∀ j, j < es0.length → entryH es0 j = false →
         entryC ((WeightedRoundRobin.mk es0).run t).2.entries j = 0
       ∧ ((WeightedRoundRobin.mk es0).run t).1.count j = 0) := by
  intro t
  induction t with
  | zero =>
    intro _
    refine ⟨rfl, rfl, fun x hx => absurd hx (List.not_mem_nil x), fun j hj hH => ?_,
      fun j hj _ => ⟨hc0 j hj, rfl⟩⟩
    refine ⟨?_, ?_⟩
    · show entryC es0 j = _
      rw [hc0 j hj,
          show (({ entries := es0 } : WeightedRoundRobin).run 0).1 = [] from rfl]
      simp
    · have := hw j hj
      rw [show (({ entries := es0 } : WeightedRoundRobin).run 0).1 = [] from rfl]
      simp only [List.count_nil, Nat.cast_zero]
      omega
  | succ t ih =>
    intro ht
    obtain ⟨ihStat, ihLen, ihMem, ihHealthy, ihUnhealthy⟩ := ih (by omega)
    have hT1 : 1 ≤ wrrTotal es0 := by omega
    have hex0 : ∃ e ∈ es0, e.backend.healthy = true := by
      by_contra hno
      push_neg at hno
      have hz : wrrTotal es0 = 0 :=
        wrrTotal_zero_of_unhealthy es0 fun e he => by simpa using hno e he
      omega
    obtain ⟨hlenT, hptT⟩ := static_pointwise _ _ ihStat
    have hTtot : wrrTotal ((WeightedRoundRobin.mk es0).run t).2.entries = wrrTotal es0 :=
      wrrTotal_eq_of_static _ _ ihStat
    have hexT : ∃ e ∈ ((WeightedRoundRobin.mk es0).run t).2.entries,
        e.backend.healthy = true := by
      obtain ⟨j0, hj0, hH0⟩ := (exists_healthy_pointwise es0).1 hex0
      exact (exists_healthy_pointwise _).2
        ⟨j0, by rw [hlenT]; exact hj0, by rw [(hptT j0).1]; exact hH0⟩
    obtain ⟨bi, st2, hnext⟩ := wrr_next_ok_of_healthy _ hexT
    obtain ⟨hbilenT, hbiHT, hlen2, hstat2, hcw2, hmaxT⟩ := wrr_next_ok _ _ _ hnext
    have hbilen : bi < es0.length := by rwa [hlenT] at hbilenT
    have hbiH : entryH es0 bi = true := by rw [← (hptT bi).1]; exact hbiHT
    have hrun : (WeightedRoundRobin.mk es0).run (t + 1) =
        (((WeightedRoundRobin.mk es0).run t).1 ++ [bi], st2) := by
      rw [WeightedRoundRobin.run, hnext]
    set L := ((WeightedRoundRobin.mk es0).run t).1 with hLdef
    have hcount : ∀ j : Nat, (L ++ [bi]).count j = L.count j + if j = bi then 1 else 0 := by
      intro j
      rw [List.count_append]
      by_cases hji : j = bi
      · subst hji
        rw [if_pos rfl, show List.count j [j] = 1 from by simp]
      · rw [if_neg hji, show List.count j [bi] = 0 from by simp [hji]]
    -- the sum of raised healthy weights over the state at time t equals the total
    have hsum : (∑ j ∈ Finset.range es0.length,
        (if entryH es0 j = true then
          entryC ((WeightedRoundRobin.mk es0).run t).2.entries j + entryW es0 j
        else 0)) = wrrTotal es0 := by
      have hterm : ∀ j ∈ Finset.range es0.length,
          (if entryH es0 j = true then
            entryC ((WeightedRoundRobin.mk es0).run t).2.entries j + entryW es0 j
          else 0) =
          ((t : Int) + 1) * (if entryH es0 j = true then entryW es0 j else 0) -
            wrrTotal es0 * (if entryH es0 j = true then (L.count j : Int) else 0) := by
        intro j hj
        have hjlt := Finset.mem_range.1 hj
        by_cases hH : entryH es0 j = true
        · rw [if_pos hH, if_pos hH, if_pos hH, (ihHealthy j hjlt hH).1]
          ring
        · rw [if_neg hH, if_neg hH, if_neg hH]
          ring
      rw [Finset.sum_congr rfl hterm, Finset.sum_sub_distrib, ← Finset.mul_sum,
          ← Finset.mul_sum]
      have hw_sum : (∑ j ∈ Finset.range es0.length,
          (if entryH es0 j = true then entryW es0 j else 0)) = wrrTotal es0 := by
        rw [wrrTotal_eq_sum]
      have hcnt_drop : ∀ j ∈ Finset.range es0.length,
          (if entryH es0 j = true then (L.count j : Int) else 0) = (L.count j : Int) := by
        intro j hj
        by_cases hH : entryH es0 j = true
        · rw [if_pos hH]
        · rw [if_neg hH, (ihUnhealthy j (Finset.mem_range.1 hj)
            (by simpa using hH)).2]
          simp
      have hcnt_sum : (∑ j ∈ Finset.range es0.length,
          (if entryH es0 j = true then (L.count j : Int) else 0)) = (t : Int) := by
        rw [Finset.sum_congr rfl hcnt_drop]
        have hnat : (∑ j ∈ Finset.range es0.length, L.count j) = L.length :=
          sum_count_range L es0.length fun x hx => (ihMem x hx).1
        have : (∑ j ∈ Finset.range es0.length, (L.count j : Int)) =
            ((∑ j ∈ Finset.range es0.length, L.count j : Nat) : Int) := by
          push_cast
          rfl
        rw [this, hnat, ihLen]
      rw [hw_sum, hcnt_sum]
      ring
    -- the winner has a strictly positive raised weight
    have hmax0 : ∀ j, j < es0.length → entryH es0 j = true →
        entryC ((WeightedRoundRobin.mk es0).run t).2.entries j + entryW es0 j ≤
          entryC ((WeightedRoundRobin.mk es0).run t).2.entries bi + entryW es0 bi := by
      intro j hj hH
      have := hmaxT j (by rwa [hlenT]) (by rw [(hptT j).1]; exact hH)
      rwa [(hptT j).2, (hptT bi).2] at this
    have hbipos : 1 ≤ entryC ((WeightedRoundRobin.mk es0).run t).2.entries bi +
        entryW es0 bi := by
      by_contra hle
      have hle2 : entryC ((WeightedRoundRobin.mk es0).run t).2.entries bi +
          entryW es0 bi ≤ 0 := by omega
      have hallnp : ∀ j ∈ Finset.range es0.length,
          (if entryH es0 j = true then
            entryC ((WeightedRoundRobin.mk es0).run t).2.entries j + entryW es0 j
          else 0) ≤ 0 := by
        intro j hj
        by_cases hH : entryH es0 j = true
        · rw [if_pos hH]
          exact le_trans (hmax0 j (Finset.mem_range.1 hj) hH) hle2
        · rw [if_neg hH]
      have := Finset.sum_nonpos hallnp
      rw [hsum] at this
      omega
    -- the winner has not yet exhausted its weight
    have hbicount : (L.count bi : Int) + 1 ≤ entryW es0 bi := by
      by_contra hcontra
      have hquota : (L.count bi : Int) = entryW es0 bi := by
        have := (ihHealthy bi hbilen hbiH).2
        omega
      have hcbi : entryC ((WeightedRoundRobin.mk es0).run t).2.entries bi =
          (t : Int) * entryW es0 bi - entryW es0 bi * wrrTotal es0 := by
        rw [(ihHealthy bi hbilen hbiH).1, hquota]
      have hval : entryC ((WeightedRoundRobin.mk es0).run t).2.entries bi +
          entryW es0 bi = entryW es0 bi * ((t : Int) + 1 - wrrTotal es0) := by
        rw [hcbi]
        ring
      have hfac : (t : Int) + 1 - wrrTotal es0 ≤ 0 := by omega
      have hwpos : (0 : Int) ≤ entryW es0 bi := le_trans zero_le_one (hw bi hbilen)
      have : entryW es0 bi * ((t : Int) + 1 - wrrTotal es0) ≤ 0 :=
        mul_nonpos_of_nonneg_of_nonpos hwpos hfac
      rw [← hval] at this
      omega
    rw [hrun]
    dsimp only
    refine ⟨?_, ?_, ?_, ?_, ?_⟩
    · refine Eq.trans (map_eq_of_pointwise wrrStatic _ _ hlen2 fun j hj => ?_) ihStat
      have := hstat2 j (by omega)
      exact Prod.ext this.1 this.2
    · rw [List.length_append, ihLen]
      rfl
    · intro x hx
      rcases List.mem_append.1 hx with hx1 | hx1
      · exact ihMem x hx1
      · rcases List.mem_singleton.1 hx1 with rfl
        exact ⟨hbilen, hbiH⟩
    · intro j hj hH
      have hjT : j < ((WeightedRoundRobin.mk es0).run t).2.entries.length := by
        rw [hlenT]
        exact hj
      have hcw := hcw2 j hjT
      rw [hTtot, (hptT j).2] at hcw
      rw [hcount j]
      by_cases hji : j = bi
      · subst hji
        rw [if_pos rfl] at hcw ⊢
        rw [hcw, (ihHealthy j hj hH).1]
        constructor
        · push_cast
          ring
        · push_cast
          have := hbicount
          omega
      · rw [if_neg hji] at hcw ⊢
        rw [if_pos (by rw [← (hptT j).1] at hH; exact hH)] at hcw
        rw [hcw, (ihHealthy j hj hH).1]
        constructor
        · push_cast
          ring
        · simpa using (ihHealthy j hj hH).2
    · intro j hj hH
      have hjT : j < ((WeightedRoundRobin.mk es0).run t).2.entries.length := by
        rw [hlenT]
        exact hj
      have hji : j ≠ bi := fun he => by rw [he, hbiH] at hH; exact Bool.noConfusion hH
      have hcw := hcw2 j hjT
      rw [if_neg hji, if_neg (by rw [(hptT j).1, hH]; exact Bool.false_ne_true)] at hcw
      rw [hcount j, if_neg hji]
      exact ⟨by rw [hcw]; exact (ihUnhealthy j hj hH).1,
        by rw [(ihUnhealthy j hj hH).2]⟩

theorem wrrTotal_ge_weight (es0 : List WrrEntry)
    (hw : ∀ i, i < es0.length → 1 ≤ entryW es0 i)
    (j : Nat) (hj : j < es0.length) (hH : entryH es0 j = true) :
    entryW es0 j ≤ wrrTotal es0 := by
  rw [wrrTotal_eq_sum]
  have := Finset.single_le_sum (f := fun i => if entryH es0 i = true then entryW es0 i else 0)
    (fun i hi => by
      dsimp only
      by_cases hHi : entryH es0 i = true
      · rw [if_pos hHi]
        exact le_trans zero_le_one (hw i (Finset.mem_range.1 hi))
      · rw [if_neg hHi])
    (Finset.mem_range.2 hj)
  dsimp only at this
  rwa [if_pos hH] at this

theorem wrr_period_counts (es0 : List WrrEntry)
    (hw : ∀ j, j < es0.length → 1 ≤ entryW es0 j)
    (hc0 : ∀ j, j < es0.length → entryC es0 j = 0) :
    (∀ j, j < es0.length → entryH es0 j = true →
      ((((WeightedRoundRobin.mk es0).run (wrrTotal es0).toNat).1.count j : Int)) =
        entryW es0 j)
  ∧ (∀ j, j < es0.length → entryH es0 j = false →
      ((WeightedRoundRobin.mk es0).run (wrrTotal es0).toNat).1.count j = 0)
  ∧ (∀ j, j < ((WeightedRoundRobin.mk es0).run (wrrTotal es0).toNat).2.entries.length →
      entryC ((WeightedRoundRobin.mk es0).run (wrrTotal es0).toNat).2.entries j = 0)
  ∧ ((WeightedRoundRobin.mk es0).run (wrrTotal es0).toNat).2.entries.map wrrStatic =
      es0.map wrrStatic := by
  obtain ⟨hstat, hlen, hmem, hhealthy, hunhealthy⟩ :=
    wrr_period_inv es0 hw hc0 (wrrTotal es0).toNat (le_refl _)
  set L := ((WeightedRoundRobin.mk es0).run (wrrTotal es0).toNat).1 with hLdef
  have hcounts : ∀ j, j < es0.length → entryH es0 j = true →
      ((L.count j : Int)) = entryW es0 j := by
    intro j hj hH
    have hT1 : 1 ≤ wrrTotal es0 :=
      le_trans (hw j hj) (wrrTotal_ge_weight es0 hw j hj hH)
    have hcast : (((wrrTotal es0).toNat : Int)) = wrrTotal es0 :=
      Int.toNat_of_nonneg (by omega)
    have hcnt_sum : (∑ i ∈ Finset.range es0.length,
        (if entryH es0 i = true then (L.count i : Int) else 0)) = wrrTotal es0 := by
      have hdrop : ∀ i ∈ Finset.range es0.length,
          (if entryH es0 i = true then (L.count i : Int) else 0) = (L.count i : Int) := by
        intro i hi
        by_cases hHi : entryH es0 i = true
        · rw [if_pos hHi]
        · rw [if_neg hHi,
            (hunhealthy i (Finset.mem_range.1 hi) (by simpa using hHi)).2]
          simp
      have hnat : (∑ i ∈ Finset.range es0.length, L.count i) = L.length :=
        sum_count_range L es0.length fun x hx => (hmem x hx).1
      rw [Finset.sum_congr rfl hdrop]
      rw [show (∑ i ∈ Finset.range es0.length, (L.count i : Int)) =
        ((∑ i ∈ Finset.range es0.length, L.count i : Nat) : Int) from by push_cast; rfl]
      rw [hnat, hlen, hcast]
    have hw_sum : (∑ i ∈ Finset.range es0.length,
        (if entryH es0 i = true then entryW es0 i else 0)) = wrrTotal es0 := by
      rw [wrrTotal_eq_sum]
    have hdiff_zero : (∑ i ∈ Finset.range es0.length,
        (if entryH es0 i = true then entryW es0 i - (L.count i : Int) else 0)) = 0 := by
      have hsplit : ∀ i ∈ Finset.range es0.length,
          (if entryH es0 i = true then entryW es0 i - (L.count i : Int) else 0) =
          (if entryH es0 i = true then entryW es0 i else 0) -
            (if entryH es0 i = true then (L.count i : Int) else 0) := by
        intro i _
        by_cases hHi : entryH es0 i = true
        · rw [if_pos hHi, if_pos hHi, if_pos hHi]
        · rw [if_neg hHi, if_neg hHi, if_neg hHi]
          ring
      rw [Finset.sum_congr rfl hsplit, Finset.sum_sub_distrib, hw_sum, hcnt_sum]
      ring
    have hnonneg : ∀ i ∈ Finset.range es0.length,
        0 ≤ (if entryH es0 i = true then entryW es0 i - (L.count i : Int) else 0) := by
      intro i hi
      by_cases hHi : entryH es0 i = true
      · rw [if_pos hHi]
        have := (hhealthy i (Finset.mem_range.1 hi) hHi).2
        omega
      · rw [if_neg hHi]
    have := (Finset.sum_eq_zero_iff_of_nonneg hnonneg).1 hdiff_zero j (Finset.mem_range.2 hj)
    rw [if_pos hH] at this
    omega
  refine ⟨hcounts, fun j hj hH => (hunhealthy j hj hH).2, ?_, hstat⟩
  intro j hjlen
  have hj : j < es0.length := by
    obtain ⟨hl, _⟩ := static_pointwise _ _ hstat
    rwa [hl] at hjlen
  by_cases hH : entryH es0 j = true
  · have hT1 : 1 ≤ wrrTotal es0 :=
      le_trans (hw j hj) (wrrTotal_ge_weight es0 hw j hj hH)
    have hcast : (((wrrTotal es0).toNat : Int)) = wrrTotal es0 :=
      Int.toNat_of_nonneg (by omega)
    rw [(hhealthy j hj hH).1, hcounts j hj hH, hcast]
    ring
  · exact (hunhealthy j hj (by simpa using hH)).1

theorem exists_healthy_of_static (es es2 : List WrrEntry)
    (hstat : es.map wrrStatic = es2.map wrrStatic)
    (hex : ∃ e ∈ es, e.backend.healthy = true) :
    ∃ e ∈ es2, e.backend.healthy = true := by
  obtain ⟨hlen, hpt⟩ := static_pointwise _ _ hstat
  obtain ⟨j, hj, hH⟩ := (exists_healthy_pointwise es).1 hex
  exact (exists_healthy_pointwise es2).2
    ⟨j, by rwa [← hlen], by rw [← (hpt j).1]; exact hH⟩

theorem wrr_next_static (st st2 : WeightedRoundRobin) (bi : Nat)
    (h : st.next = .ok (bi, st2)) :
    st2.entries.map wrrStatic = st.entries.map wrrStatic := by
  obtain ⟨_, _, hlen2, hstat2, _, _⟩ := wrr_next_ok _ _ _ h
  refine map_eq_of_pointwise wrrStatic _ _ hlen2 fun j hj => ?_
  have := hstat2 j (by omega)
  exact Prod.ext this.1 this.2

theorem wrr_run_static (st : WeightedRoundRobin)
    (hex : ∃ e ∈ st.entries, e.backend.healthy = true) :
    ∀ m, (st.run m).1.length = m ∧
      (st.run m).2.entries.map wrrStatic = st.entries.map wrrStatic := by
  intro m
  induction m with
  | zero => exact ⟨rfl, rfl⟩
  | succ n ih =>
    obtain ⟨hl, hs⟩ := ih
    have hexn : ∃ e ∈ (st.run n).2.entries, e.backend.healthy = true :=
      exists_healthy_of_static _ _ hs.symm hex
    obtain ⟨bi, st2, hnext⟩ := wrr_next_ok_of_healthy _ hexn
    have hrun : st.run (n + 1) = ((st.run n).1 ++ [bi], st2) := by
      rw [WeightedRoundRobin.run, hnext]
    rw [hrun]
    refine ⟨by rw [List.length_append, hl]; rfl, ?_⟩
    exact Eq.trans (wrr_next_static _ _ _ hnext) hs

theorem proj_eq_of_static_and_zero (es es2 : List WrrEntry)
    (hstat : es.map wrrStatic = es2.map wrrStatic)
    (h1 : ∀ j, j < es.length → entryC es j = 0)
    (h2 : ∀ j, j < es2.length → entryC es2 j = 0) :
    es.map wrrProj = es2.map wrrProj := by
  obtain ⟨hlen, hpt⟩ := static_pointwise _ _ hstat
  refine map_eq_of_pointwise _ _ _ hlen fun j hj => ?_
  have hc : entryC es j = entryC es2 j := by
    rw [h1 j hj, h2 j (by omega)]
  exact Prod.ext (hpt j).1 (Prod.ext (hpt j).2 hc)

/-- Boundary states: after every whole number of periods the state is
projection-equal to the construction state. -/
theorem wrr_boundary (es0 : List WrrEntry)
    (hw : ∀ j, j < es0.length → 1 ≤ entryW es0 j)
    (hc0 : ∀ j, j < es0.length → entryC es0 j = 0) :
    ∀ q, ((WeightedRoundRobin.mk es0).run (q * (wrrTotal es0).toNat)).2.entries.map wrrProj =
      es0.map wrrProj := by
  intro q
  induction q with
  | zero => rw [Nat.zero_mul]; rfl
  | succ q ih =>
    have hq : (q + 1) * (wrrTotal es0).toNat =
        q * (wrrTotal es0).toNat + (wrrTotal es0).toNat := by ring
    rw [hq, wrr_run_add]
    dsimp only
    set sq := ((WeightedRoundRobin.mk es0).run (q * (wrrTotal es0).toNat)).2 with hsq
    obtain ⟨hlenq, hptq⟩ := proj_pointwise _ _ ih
    have hstatq : sq.entries.map wrrStatic = es0.map wrrStatic := static_of_proj _ _ ih
    have hwq : ∀ j, j < sq.entries.length → 1 ≤ entryW sq.entries j := by
      intro j hj
      rw [(hptq j).2.1]
      exact hw j (by omega)
    have hcq : ∀ j, j < sq.entries.length → entryC sq.entries j = 0 := by
      intro j hj
      rw [(hptq j).2.2]
      exact hc0 j (by omega)
    have htotq : wrrTotal sq.entries = wrrTotal es0 := wrrTotal_eq_of_static _ _ hstatq
    obtain ⟨_, _, hzero, hstat2⟩ := wrr_period_counts sq.entries hwq hcq
    have hsq_eta : (WeightedRoundRobin.mk sq.entries) = sq := rfl
    rw [hsq_eta, htotq] at hzero hstat2
    refine proj_eq_of_static_and_zero _ _ (Eq.trans hstat2 hstatq) hzero hc0

/-- C4 (amended): for WeightedRoundRobin over a fixed backend list with
positive integer weights and a stable healthy set, any window of Σw_i
consecutive successful next() calls — the sum ranging over the HEALTHY
backends, since the selection loop in the source checks only IsHealthy()
and ignores the blocked flag — selects each healthy backend i exactly
w_i times: each call adds w_i to every healthy entry's current_weight,
picks the healthy entry with maximum current_weight (ties broken by
earliest index), and subtracts the total healthy weight from the winner. -/
theorem C4_wrr_window_fairness (bs : List Backend)
    (hw : ∀ b ∈ bs, 1 ≤ b.weight)
    (a j : Nat) (hj : j < bs.length)
    (hH : (bs.getD j default).healthy = true) :
    (((((NewWeightedRoundRobin bs).run
        (a + (wrrTotal (NewWeightedRoundRobin bs).entries).toNat)).1.drop a).count j : Int))
      = (bs.getD j default).weight := by
  set es0 := (NewWeightedRoundRobin bs).entries with hes0
  have hes0d : es0 = bs.map fun b => ⟨b, 0⟩ := rfl
  have hmk : WeightedRoundRobin.mk es0 = NewWeightedRoundRobin bs := rfl
  have hlen0 : es0.length = bs.length := by rw [hes0d, List.length_map]
  have hWe : ∀ i, i < bs.length → entryW es0 i = (bs.getD i default).weight := by
    intro i hi
    unfold entryW
    rw [hes0d, getD_map_lt _ _ _ hi _ default]
  have hHe : ∀ i, i < bs.length → entryH es0 i = (bs.getD i default).healthy := by
    intro i hi
    unfold entryH
    rw [hes0d, getD_map_lt _ _ _ hi _ default]
  have hw0 : ∀ i, i < es0.length → 1 ≤ entryW es0 i := by
    intro i hi
    rw [hlen0] at hi
    rw [hWe i hi]
    refine hw _ ?_
    rw [List.getD_eq_getElem _ _ hi]
    exact List.getElem_mem hi
  have hc0 : ∀ i, i < es0.length → entryC es0 i = 0 := by
    intro i hi
    unfold entryC
    rw [hes0d, getD_map_lt _ _ _ (by rwa [hlen0] at hi) _ default]
  have hj0 : j < es0.length := by rw [hlen0]; exact hj
  have hH0 : entryH es0 j = true := by rw [hHe j hj]; exact hH
  have hexh : ∃ e ∈ es0, e.backend.healthy = true :=
    (exists_healthy_pointwise es0).2 ⟨j, hj0, hH0⟩
  have hT1 : 1 ≤ wrrTotal es0 :=
    le_trans (hw0 j hj0) (wrrTotal_ge_weight es0 hw0 j hj0 hH0)
  set natT := (wrrTotal es0).toNat with hnatT
  have hTpos : 0 < natT := by omega
  obtain ⟨q, r, hr, hqr⟩ : ∃ q r, r < natT ∧ a = natT * q + r :=
    ⟨a / natT, a % natT, Nat.mod_lt a hTpos, (Nat.div_add_mod a natT).symm⟩
  rw [← hmk, hqr]
  -- split the run at the period boundary natT * q
  have hassoc : natT * q + r + natT = natT * q + (r + natT) := by omega
  rw [hassoc, wrr_run_add]
  dsimp only
  set Sq := ((WeightedRoundRobin.mk es0).run (natT * q)).2 with hSq
  have hlenX : ((WeightedRoundRobin.mk es0).run (natT * q)).1.length = natT * q :=
    (wrr_run_static _ hexh _).1
  have hprojq : Sq.entries.map wrrProj = es0.map wrrProj := by
    have := wrr_boundary es0 hw0 hc0 q
    rwa [mul_comm, ← hnatT, ← hSq] at this
  have hY : (Sq.run (r + natT)).1 = ((WeightedRoundRobin.mk es0).run (r + natT)).1 :=
    (wrr_run_congr _ _ hprojq _).1
  have hdropA : ∀ l2 : List Nat,
      (((WeightedRoundRobin.mk es0).run (natT * q)).1 ++ l2).drop (natT * q + r) =
        l2.drop r := by
    intro l2
    rw [List.drop_append_eq_append_drop, List.drop_eq_nil_of_le (by rw [hlenX]; omega),
      List.nil_append, hlenX, Nat.add_sub_cancel_left]
  rw [hdropA, hY]
  -- split the remaining run at natT
  rw [Nat.add_comm r natT, wrr_run_add]
  dsimp only
  set P := ((WeightedRoundRobin.mk es0).run natT).1 with hP
  set S1 := ((WeightedRoundRobin.mk es0).run natT).2 with hS1
  have hPlen : P.length = natT := (wrr_run_static _ hexh _).1
  have hproj1 : S1.entries.map wrrProj = es0.map wrrProj := by
    have := wrr_boundary es0 hw0 hc0 1
    rwa [one_mul, ← hnatT, ← hS1] at this
  have hQ : (S1.run r).1 = ((WeightedRoundRobin.mk es0).run r).1 :=
    (wrr_run_congr _ _ hproj1 _).1
  have hQlen : ((WeightedRoundRobin.mk es0).run r).1.length = r :=
    (wrr_run_static _ hexh _).1
  have hQtake : P.take r = ((WeightedRoundRobin.mk es0).run r).1 := by
    have hsum : r + (natT - r) = natT := by omega
    have hsplit : P = ((WeightedRoundRobin.mk es0).run r).1 ++
        (((WeightedRoundRobin.mk es0).run r).2.run (natT - r)).1 := by
      have hadd := wrr_run_add (WeightedRoundRobin.mk es0) r (natT - r)
      rw [hsum] at hadd
      rw [hP, hadd]
    rw [hsplit, List.take_append_eq_append_take, hQlen, Nat.sub_self, List.take_zero,
      List.append_nil, List.take_of_length_le (le_of_eq hQlen)]
  rw [hQ, ← hQtake]
  -- count over the rotated window equals the count over one full period
  have hcount : ((P.drop r ++ P.take r).count j : Int) = (P.count j : Int) := by
    rw [List.count_append, Nat.add_comm, ← List.count_append, List.take_append_drop]
  have hdropPQ : (P ++ P.take r).drop r = P.drop r ++ P.take r := by
    rw [List.drop_append_eq_append_drop]
    have : r - P.length = 0 := by omega
    rw [this, List.drop_zero]
  rw [hdropPQ, hcount]
  have hper := (wrr_period_counts es0 hw0 hc0).1 j hj0 hH0
  rw [← hnatT, ← hP] at hper
  rw [hper, hWe j hj]

/-- C4 counterexample to the original wording: with a healthy-but-blocked
backend A (weight 1) ahead of a selectable backend B (weight 1), the
selectable set is exactly [B] with total selectable weight 1, yet the
window of 1 consecutive next() call picks backend 1 (B) zero times — the
call returns the blocked backend at index 0, because the selection loop
in the source filters on IsHealthy() only. -/
theorem C4_counterexample :
    let bA : Backend := ⟨⟨"http", "b1:80", "", ""⟩, "http://b1:80", 1, true, true, 0, 0, 0⟩
    let bB : Backend := ⟨⟨"http", "b2:80", "", ""⟩, "http://b2:80", 1, true, false, 0, 0, 0⟩
    let bs := [bA, bB]
    healthySubset bs = [bB] ∧ bB.weight = 1 ∧
      ((NewWeightedRoundRobin bs).run 1).1.count 1 = 0 ∧
      ((NewWeightedRoundRobin bs).run 1).1 = [0] := by
  decide

theorem C4_witness :
    (∀ b ∈ [(⟨⟨"http", "b1:80", "", ""⟩, "http://b1:80", 1, true, false, 0, 0, 0⟩ : Backend),
            (⟨⟨"http", "b2:80", "", ""⟩, "http://b2:80", 2, true, false, 0, 0, 0⟩ : Backend)],
        1 ≤ b.weight) ∧
    (((((NewWeightedRoundRobin
        [(⟨⟨"http", "b1:80", "", ""⟩, "http://b1:80", 1, true, false, 0, 0, 0⟩ : Backend),
         (⟨⟨"http", "b2:80", "", ""⟩, "http://b2:80", 2, true, false, 0, 0, 0⟩ : Backend)]).run
        (1 + (wrrTotal (NewWeightedRoundRobin
          [(⟨⟨"http", "b1:80", "", ""⟩, "http://b1:80", 1, true, false, 0, 0, 0⟩ : Backend),
           (⟨⟨"http", "b2:80", "", ""⟩, "http://b2:80", 2, true, false, 0, 0, 0⟩ : Backend)]).entries).toNat)).1.drop
            1).count 1 : Int))
      = ([(⟨⟨"http", "b1:80", "", ""⟩, "http://b1:80", 1, true, false, 0, 0, 0⟩ : Backend),
           (⟨⟨"http", "b2:80", "", ""⟩, "http://b2:80", 2, true, false, 0, 0, 0⟩ : Backend)].getD
            1 default).weight :=
  ⟨by decide,
   C4_wrr_window_fairness
     [(⟨⟨"http", "b1:80", "", ""⟩, "http://b1:80", 1, true, false, 0, 0, 0⟩ : Backend),
      (⟨⟨"http", "b2:80", "", ""⟩, "http://b2:80", 2, true, false, 0, 0, 0⟩ : Backend)]
     (by decide) 1 1 (by decide) (by decide)⟩

end Golb
